import Mathlib

/-!
Verification of the tmvc text-editing core: a shallow embedding of the
line-oriented text buffer (`simple_text_model`), the position/range
arithmetic (`position.hpp`, `range.hpp`), the modification history
(`modification.hpp`), the single selection model
(`single_selection_model.hpp`) and the standard edit controller
(`std_edit_controller.ipp`), together with theorems about the claims of
the specification.

Characters are Lean `Char`s, a buffer is a non-empty list of lines, each
line a list of characters.  Machine integers of the source (`uint64_t`
positions, the `int` dirty counter with its `INT_MAX` sentinel) are
modelled by `Nat`/`Int`; all subtractions in the source are guarded, and
the guards are reproduced verbatim.
-/

set_option autoImplicit false

namespace tmvc

/-- Model of `tmvc::position` (position.hpp): a line/column pair. -/
structure position where
  line : Nat
  column : Nat
deriving DecidableEq, Repr

/-- `position::operator<`: line-major, column-minor order. -/
def posLt (a b : position) : Bool :=
  if a.line = b.line then a.column < b.column else a.line < b.line

/-- `position::operator<=`: `*this < p || *this == p`. -/
def posLe (a b : position) : Bool :=
  posLt a b || decide (a = b)

/-- `position::operator>`: `!(*this <= p)`. -/
def posGt (a b : position) : Bool :=
  !(posLe a b)

/-- Model of `tmvc::range` (range.hpp).  The source field `end` is called
`stop` here because `end` is a Lean keyword. -/
structure range where
  start : position
  stop : position
deriving DecidableEq, Repr

/-- `range::empty()`: true iff `start == end`. -/
def range.isEmpty (r : range) : Bool :=
  decide (r.start = r.stop)

/-- `tmvc::adjust_pos_after_insert` from range.hpp. -/
def adjust_pos_after_insert (pos : position) (r : range) (move_eq_pos : Bool) : position :=
  if posLt r.start pos || (move_eq_pos && decide (r.start = pos)) then
    let column := if pos.line = r.start.line
      then r.stop.column + (pos.column - r.start.column)
      else pos.column
    { line := pos.line + (r.stop.line - r.start.line), column := column }
  else
    pos

/-- `tmvc::adjust_pos_after_erase` from range.hpp. -/
def adjust_pos_after_erase (pos : position) (r : range) : position :=
  if posGt pos r.stop then
    if r.stop.line = pos.line then
      { line := r.start.line, column := r.start.column + pos.column - r.stop.column }
    else
      { line := pos.line - (r.stop.line - r.start.line), column := pos.column }
  else if posLt r.start pos then
    r.start
  else
    pos

/-- The paragraph-separator code point U+2029, treated as a line break by
`impl::split_chars_to_lines`. -/
def paraSep : Char := Char.ofNat 0x2029

/-- One step of `impl::split_chars_to_lines` (impl/utils.hpp): walks the
characters, skipping `'\r'`, closing the current line at `'\n'` or U+2029. -/
def split_chars_aux : List Char → List Char → List (List Char)
  | [], cur => [cur]
  | c :: rest, cur =>
    if c = '\r' then split_chars_aux rest cur
    else if c = '\n' || c = paraSep then cur :: split_chars_aux rest []
    else split_chars_aux rest (cur ++ [c])

/-- Model of `impl::split_chars_to_lines`: splits a character sequence into
lines, dropping carriage returns.  Always returns at least one line. -/
def split_chars_to_lines (chars : List Char) : List (List Char) :=
  split_chars_aux chars []

/-- A text buffer: the `lines_` vector of `basic_simple_text_model`. -/
abbrev lines_t := List (List Char)

/-- `line_str` / `line_characters` for a buffer. -/
def line_str (lines : lines_t) (idx : Nat) : List Char :=
  lines.getD idx []

/-- `text_model` helper `end_pos`: position after the last character. -/
def end_pos (lines : lines_t) : position :=
  { line := lines.length - 1, column := (line_str lines (lines.length - 1)).length }

/-- `text_model` helper `pos_is_valid`. -/
def pos_is_valid (lines : lines_t) (p : position) : Bool :=
  p.line < lines.length && p.column ≤ (line_str lines p.line).length

/-- `text_model` helper `next_pos`. -/
def next_pos (lines : lines_t) (p : position) : position :=
  if p.column < (line_str lines p.line).length then
    { line := p.line, column := p.column + 1 }
  else
    { line := p.line + 1, column := 0 }

/-- `text_model` helper `prev_pos`. -/
def prev_pos (lines : lines_t) (p : position) : position :=
  if 0 < p.column then
    { line := p.line, column := p.column - 1 }
  else
    { line := p.line - 1, column := (line_str lines (p.line - 1)).length }

/-- `basic_simple_text_model::insert` without signals: splices `chars`
(split into lines) into the buffer at `p` and computes the inserted range.
Returns the new lines and the range, exactly as computed in
simple_text_model.ipp. -/
def buffer_insert (lines : lines_t) (p : position) (chars : List Char) :
    lines_t × range :=
  if chars = [] then (lines, ⟨p, p⟩)
  else
    let new_lines := split_chars_to_lines chars
    let end_line_num := p.line + new_lines.length - 1
    let end_column_num := if new_lines.length = 1
      then p.column + (new_lines.getLastD []).length
      else (new_lines.getLastD []).length
    let l := line_str lines p.line
    let old_first_line_end := l.drop p.column
    let first_new := l.take p.column ++ new_lines.headD []
    let body := first_new :: new_lines.tail
    let body' := body.dropLast ++ [body.getLastD [] ++ old_first_line_end]
    (lines.take p.line ++ body' ++ lines.drop (p.line + 1),
     ⟨p, { line := end_line_num, column := end_column_num }⟩)

/-- `basic_simple_text_model::erase` without signals. -/
def buffer_erase (lines : lines_t) (r : range) : lines_t :=
  if r.start = r.stop then lines
  else if r.start.line = r.stop.line then
    lines.set r.start.line
      ((line_str lines r.start.line).take r.start.column ++
       (line_str lines r.start.line).drop r.stop.column)
  else
    lines.take r.start.line ++
    [(line_str lines r.start.line).take r.start.column ++
     (line_str lines r.stop.line).drop r.stop.column] ++
    lines.drop (r.stop.line + 1)

/-- `basic_simple_text_model::replace` without signals: in-place same-line
substitution; a `'\n'` in `chars` is inserted literally. -/
def buffer_replace (lines : lines_t) (p : position) (chars : List Char) : lines_t :=
  lines.set p.line
    ((line_str lines p.line).take p.column ++ chars ++
     (line_str lines p.line).drop (p.column + chars.length))

/-- `characters_str` over a range of the buffer (text_model.hpp): the
characters of the span, with a `'\n'` produced at each line end. -/
def characters_str (lines : lines_t) (r : range) : List Char :=
  if r.start.line = r.stop.line then
    ((line_str lines r.start.line).take r.stop.column).drop r.start.column
  else
    (line_str lines r.start.line).drop r.start.column ++ ['\n'] ++
    (((lines.drop (r.start.line + 1)).take (r.stop.line - (r.start.line + 1))).map
      (fun l => l ++ ['\n'])).flatten ++
    (line_str lines r.stop.line).take r.stop.column

/-- `single_selection_model::on_after_inserted`
(single_selection_model.hpp): re-derives `(pos, anchor_pos)` after an
insertion of range `r`.  Returns the new `(pos, anchor_pos)` pair. -/
def on_after_inserted (pos anchor : position) (r : range)
    (move_pos_after_insert : Bool) : position × position :=
  if posLt r.start pos || (decide (r.start = pos) && move_pos_after_insert) then
    let new_pos :=
      { line := pos.line + (r.stop.line - r.start.line),
        column := if pos.line = r.start.line
          then r.stop.column + (pos.column - r.start.column)
          else pos.column }
    let new_anchor :=
      if posLt anchor r.start then new_pos
      else
        { line := anchor.line + (r.stop.line - r.start.line),
          column := if anchor.line = r.start.line
            then r.stop.column + (anchor.column - r.start.column)
            else anchor.column }
    (new_pos, new_anchor)
  else
    (pos, if posGt anchor r.start then pos else anchor)

/-- `single_selection_model::on_after_erased`: re-derives
`(pos, anchor_pos)` after an erase of range `r`. -/
def on_after_erased (pos anchor : position) (r : range) : position × position :=
  if posGt pos r.stop then
    let new_pos :=
      if r.stop.line = pos.line then
        { line := r.start.line, column := r.start.column + pos.column - r.stop.column }
      else
        { line := pos.line - (r.stop.line - r.start.line), column := pos.column }
    let new_anchor :=
      if posLt anchor r.stop then new_pos
      else if r.stop.line = anchor.line then
        { line := r.start.line, column := r.start.column + anchor.column - r.stop.column }
      else
        { line := anchor.line - (r.stop.line - r.start.line), column := anchor.column }
    (new_pos, new_anchor)
  else if posLt r.start pos then
    (r.start, r.start)
  else
    (pos, if posGt anchor r.start then pos else anchor)

/-- `impl::selected_range`: the normalized selection range. -/
def selected_range_of (a_pos pos : position) : range :=
  if posLe a_pos pos then ⟨a_pos, pos⟩ else ⟨pos, a_pos⟩

/-- Model of `tmvc::modification` and its subclasses: a closed sum over
insert / erase / replace / group. -/
inductive modification where
  | insert (r : range) (chars : List Char)
  | erase (r : range) (chars : List Char)
  | replace (r : range) (old_chars new_chars : List Char)
  | group (mods : List modification)

/-- The `INT_MAX` sentinel of `modification_history::undo_redo_count_`. -/
def intMax : Int := 2147483647

/-- Model of `tmvc::modification_history`: undo list (back = most recent),
redo list, and the signed dirty counter with its `INT_MAX` sentinel. -/
structure modification_history where
  undo_mods : List modification
  redo_mods : List modification
  undo_redo_count : Int

namespace modification_history

/-- A freshly constructed, empty history. -/
def empty : modification_history :=
  { undo_mods := [], redo_mods := [], undo_redo_count := 0 }

/-- `modification_history::can_undo`. -/
def can_undo (h : modification_history) : Bool :=
  !h.undo_mods.isEmpty

/-- `modification_history::can_redo`. -/
def can_redo (h : modification_history) : Bool :=
  !h.redo_mods.isEmpty

/-- `modification_history::changed`: `undo_redo_count_ != 0`. -/
def changed (h : modification_history) : Bool :=
  h.undo_redo_count != 0

/-- `modification_history::clear`. -/
def clear (_h : modification_history) : modification_history :=
  empty

/-- `modification_history::add`: push onto the undo list, evict the oldest
entry past 1000, clear the redo list, and advance the dirty counter
(sentinel stays, negative snaps to the sentinel, otherwise increment). -/
def add (h : modification_history) (m : modification) : modification_history :=
  let undo := h.undo_mods ++ [m]
  let undo := if 1000 < undo.length then undo.tail else undo
  { undo_mods := undo,
    redo_mods := [],
    undo_redo_count :=
      if h.undo_redo_count = intMax then h.undo_redo_count
      else if h.undo_redo_count < 0 then intMax
      else h.undo_redo_count + 1 }

/-- `modification_history::undo`: moves the top of the undo list to the
redo list and decrements the counter (no-op at the sentinel). -/
def undo (h : modification_history) : modification_history :=
  match h.undo_mods.getLast? with
  | none => h
  | some m =>
    { undo_mods := h.undo_mods.dropLast,
      redo_mods := h.redo_mods ++ [m],
      undo_redo_count :=
        if h.undo_redo_count = intMax then h.undo_redo_count
        else h.undo_redo_count - 1 }

/-- `modification_history::redo`: moves the top of the redo list to the
undo list and increments the counter (no-op at the sentinel). -/
def redo (h : modification_history) : modification_history :=
  match h.redo_mods.getLast? with
  | none => h
  | some m =>
    { undo_mods := h.undo_mods ++ [m],
      redo_mods := h.redo_mods.dropLast,
      undo_redo_count :=
        if h.undo_redo_count = intMax then h.undo_redo_count
        else h.undo_redo_count + 1 }

/-- Iterated `add`, used to state the >1000-adds eviction property. -/
def add_all (h : modification_history) (ms : List modification) : modification_history :=
  ms.foldl add h

end modification_history

/-- The combined state of text model, selection model, modification
history and the `std_edit_controller` configuration, as wired together by
`single_edit_controller` (single_edit_controller.hpp). -/
structure editor_state where
  lines : lines_t
  pos : position
  anchor_pos : position
  history : modification_history
  expand_tabs : Bool := false
  tab_size : Nat := 4
  is_overwrite_mode : Bool := false
  enable_history : Bool := true
  move_pos_after_insert : Bool := true

namespace editor_state

/-- `basic_simple_text_model::insert` followed by the selection model's
`after_inserted_2` handler (`on_after_inserted`).  Returns the inserted
range. -/
def model_insert (s : editor_state) (p : position) (chars : List Char) :
    editor_state × range :=
  if chars = [] then (s, ⟨p, p⟩)
  else
    let res := buffer_insert s.lines p chars
    let sel := on_after_inserted s.pos s.anchor_pos res.2 s.move_pos_after_insert
    ({ s with lines := res.1, pos := sel.1, anchor_pos := sel.2 }, res.2)

/-- `basic_simple_text_model::erase` followed by the selection model's
`after_erased_2` handler (`on_after_erased`). -/
def model_erase (s : editor_state) (r : range) : editor_state :=
  if r.start = r.stop then s
  else
    let sel := on_after_erased s.pos s.anchor_pos r
    { s with lines := buffer_erase s.lines r, pos := sel.1, anchor_pos := sel.2 }

/-- `basic_simple_text_model::replace`: the selection model does not react
(`replace` emits no `_2` signal). -/
def model_replace (s : editor_state) (p : position) (chars : List Char) : editor_state :=
  { s with lines := buffer_replace s.lines p chars }

/-- `selected_range()` of the controller. -/
def selected_range (s : editor_state) : range :=
  selected_range_of s.anchor_pos s.pos

/-- `derived_set_pos_move_anchor`: cursor and anchor to the same position. -/
def set_pos_move_anchor (s : editor_state) (p : position) : editor_state :=
  { s with pos := p, anchor_pos := p }

/-- `derived_set_pos_keep_anchor`: move the cursor, keep the anchor. -/
def set_pos_keep_anchor (s : editor_state) (p : position) : editor_state :=
  { s with pos := p }

/-- `get_pos_forward`: one position forward, or unchanged at text end. -/
def get_pos_forward (s : editor_state) (p : position) : position :=
  if p = end_pos s.lines then p else next_pos s.lines p

/-- `get_pos_backward`: one position backward, or unchanged at text start. -/
def get_pos_backward (s : editor_state) (p : position) : position :=
  if p = ⟨0, 0⟩ then p else prev_pos s.lines p

/-- `std_edit_controller::insert_chars(p, chars)`: inserts at `p` and
records an `insert_modification` when history is enabled. -/
def insert_chars_at (s : editor_state) (p : position) (chars : List Char) : editor_state :=
  if chars = [] then s
  else
    let res := s.model_insert p chars
    if s.enable_history then
      { res.1 with history := res.1.history.add (.insert res.2 chars) }
    else res.1

/-- `std_edit_controller::delete_chars(r)`: erases `r` (if non-empty),
saving the erased characters, and records an `erase_modification` when
history is enabled. -/
def delete_chars (s : editor_state) (r : range) : editor_state :=
  if r.start = r.stop then s
  else
    let chars := characters_str s.lines r
    let s' := s.model_erase r
    if s.enable_history then
      { s' with history := s'.history.add (.erase r chars) }
    else s'

/-- `std_edit_controller::insert_chars(chars)`: removes the current
selection, then inserts at the (possibly collapsed) current position. -/
def insert_chars (s : editor_state) (chars : List Char) : editor_state :=
  let s := s.delete_chars s.selected_range
  s.insert_chars_at s.pos chars

/-- `std_edit_controller::paste`. -/
def paste (s : editor_state) (text : List Char) : editor_state :=
  s.insert_chars text

/-- `std_edit_controller::do_delete` (the `ctrl`/`shift` arguments are
unused in the source). -/
def do_delete (s : editor_state) : editor_state :=
  let sel := s.selected_range
  if sel.start = sel.stop then
    let p_end := s.get_pos_forward sel.start
    if p_end ≠ sel.start then s.delete_chars ⟨sel.start, p_end⟩ else s
  else
    s.delete_chars sel

/-- `std_edit_controller::do_backspace`. -/
def do_backspace (s : editor_state) : editor_state :=
  let sel := s.selected_range
  if sel.start = sel.stop then
    let p_start := s.get_pos_backward sel.start
    if p_start ≠ sel.start then s.delete_chars ⟨p_start, sel.start⟩ else s
  else
    s.delete_chars sel

/-- `std_edit_controller::delete_()`. -/
def delete_op (s : editor_state) : editor_state :=
  s.do_delete

/-- `std_edit_controller::copy` (std_selection_controller.hpp): the
selected characters; read-only. -/
def copy (s : editor_state) : List Char :=
  characters_str s.lines s.selected_range

/-- `std_edit_controller::cut`: copy, then delete. -/
def cut (s : editor_state) : editor_state × List Char :=
  (s.do_delete, s.copy)

end editor_state

/-- The character U+007B, written by code point to keep the source ASCII-clean. -/
def openBrace : Char := Char.ofNat 123

/-- The character U+007D. -/
def closeBrace : Char := Char.ofNat 125

/-- Membership in the `"\t "` search string used with `find_first_not_of`
and friends in std_edit_controller.ipp. -/
def is_tab_space (c : Char) : Bool :=
  c = '\t' || c = ' '

/-- `find_first_not_of("\t ")` on a line: `none` models `npos`. -/
def find_first_not_tab_space (l : List Char) : Option Nat :=
  l.findIdx? (fun c => !is_tab_space c)

/-- `find_last_not_of("\t ")` on a line: `none` models `npos`. -/
def find_last_not_tab_space (l : List Char) : Option Nat :=
  match l.reverse.findIdx? (fun c => !is_tab_space c) with
  | none => none
  | some i => some (l.length - 1 - i)

/-- `std_edit_controller::find_indent_chars`: scan backward from `lnum`
for the first line with a non-whitespace character and return its leading
whitespace together with the line number (`none` models `SIZE_MAX`). -/
def find_indent_chars (lines : lines_t) : Nat → List Char × Option Nat
  | 0 =>
    match find_first_not_tab_space (line_str lines 0) with
    | some p => ((line_str lines 0).take p, some 0)
    | none => ([], none)
  | n + 1 =>
    match find_first_not_tab_space (line_str lines (n + 1)) with
    | some p => ((line_str lines (n + 1)).take p, some (n + 1))
    | none => find_indent_chars lines n

namespace editor_state

/-- `std_edit_controller::remove_all_spaces_current_line`. -/
def remove_all_spaces_current_line (s : editor_state) : editor_state :=
  let cline := line_str s.lines s.pos.line
  if cline = [] then s
  else if cline.all (fun c => c = ' ' || c = '\t') then
    s.delete_chars ⟨⟨s.pos.line, 0⟩, ⟨s.pos.line, cline.length⟩⟩
  else s

/-- `std_edit_controller::do_enter`: strip an all-whitespace current line,
compute the auto-indent to carry forward (plus one indent unit after a
trailing `{`), and insert the newline with the indent. -/
def do_enter (s : editor_state) : editor_state :=
  let s := s.remove_all_spaces_current_line
  let sel_begin := s.selected_range.start
  let start_search_line :=
    let sel_line_start := (line_str s.lines sel_begin.line).take sel_begin.column
    if find_first_not_tab_space sel_line_start = none then
      if sel_begin.line ≠ 0 then sel_begin.line - 1 else sel_begin.line
    else sel_begin.line
  let search_res := find_indent_chars s.lines start_search_line
  let add_tab :=
    match search_res.2 with
    | some lnum =>
      if lnum = sel_begin.line then
        let l_str := line_str s.lines lnum
        let lbegin := l_str.take sel_begin.column
        match find_last_not_tab_space lbegin with
        | some last_char_pos => decide (l_str.getD last_char_pos ' ' = openBrace)
        | none => false
      else
        let l_str := line_str s.lines lnum
        match find_last_not_tab_space l_str with
        | some last_char_pos => decide (l_str.getD last_char_pos ' ' = openBrace)
        | none => false
    | none => false
  let chars := '\n' ::
    (search_res.1 ++
      (if add_tab then
        (if s.expand_tabs then List.replicate s.tab_size ' ' else ['\t'])
      else []))
  s.insert_chars chars

/-- `std_edit_controller::do_char`: overwrite-mode replacement when not at
line end; auto-removal of one indent unit when typing `}` at the end of an
all-whitespace line; otherwise plain insertion.  Note the source compares
the last four characters (`substr(cline.size() - 4, 4)`) against
`tab_size()` spaces. -/
def do_char (s : editor_state) (c : Char) : editor_state :=
  let cline := line_str s.lines s.pos.line
  if s.is_overwrite_mode && s.selected_range.isEmpty &&
     decide (s.pos.column ≠ cline.length) then
    let s := s.model_replace s.pos [c]
    s.set_pos_move_anchor ⟨s.pos.line, s.pos.column + 1⟩
  else
    let s :=
      if decide (c = closeBrace) && s.selected_range.isEmpty &&
         decide (s.pos.line ≠ 0) && decide (s.pos.column = cline.length) &&
         decide (cline ≠ []) && (find_first_not_tab_space cline).isNone then
        let res := find_indent_chars s.lines (s.pos.line - 1)
        if cline.take res.1.length = res.1 then
          if cline.getLastD ' ' = '\t' then
            s.delete_chars ⟨⟨s.pos.line, s.pos.column - 1⟩, s.pos⟩
          else if s.tab_size ≤ cline.length &&
                  decide ((cline.drop (cline.length - 4)).take 4 =
                          List.replicate s.tab_size ' ') then
            s.delete_chars ⟨⟨s.pos.line, s.pos.column - s.tab_size⟩, s.pos⟩
          else s
        else s
      else s
    s.insert_chars [c]

end editor_state

/-- `transaction::insert_characters`: applies the insertion to the model
and appends an `insert_modification` to the transaction group. -/
def trans_insert_characters (s : editor_state) (g : List modification)
    (p : position) (chars : List Char) : editor_state × List modification :=
  if chars = [] then (s, g)
  else
    let res := s.model_insert p chars
    (res.1, g ++ [.insert res.2 chars])

/-- `transaction::erase_characters`: saves the erased characters, applies
the erase to the model and appends an `erase_modification` to the group. -/
def trans_erase_characters (s : editor_state) (g : List modification)
    (r : range) : editor_state × List modification :=
  if r.start = r.stop then (s, g)
  else (s.model_erase r, g ++ [.erase r (characters_str s.lines r)])

/-- `transaction::~transaction`: commits the group to the history iff it
is non-empty. -/
def commit_transaction (s : editor_state) (g : List modification) : editor_state :=
  if g.isEmpty then s
  else { s with history := s.history.add (.group g) }

/-- The leading-spaces count of the shift-tab de-indent loop: counts
leading `' '` characters, stopping once the count reaches `tab_size`. -/
def leading_spaces_capped : List Char → Nat → Nat → Nat
  | [], _cap, n => n
  | c :: rest, cap, n =>
    if c ≠ ' ' then n
    else
      let n' := n + 1
      if n' = cap then n' else leading_spaces_capped rest cap n'

/-- The backward space walk of simple shift-tab: decrement `col` while it
is above `min_col` and the character before it is a space. -/
def walk_back_spaces (cline : List Char) : Nat → Nat → Nat
  | 0, _min_col => 0
  | col + 1, min_col =>
    if col + 1 ≤ min_col then col + 1
    else if cline.getD col ' ' ≠ ' ' then col + 1
    else walk_back_spaces cline col min_col

/-- The block-indent loop of `do_tab`: insert the indent unit at the start
of every selected line, accumulating the transaction group. -/
def do_tab_indent_lines (chars : List Char) :
    editor_state → List modification → List Nat → editor_state × List modification
  | s, g, [] => (s, g)
  | s, g, i :: rest =>
    let pr := trans_insert_characters s g ⟨i, 0⟩ chars
    do_tab_indent_lines chars pr.1 pr.2 rest

/-- The block-de-indent loop of `do_tab`: strip up to one indent unit (a
leading tab, else up to `tab_size` spaces) from every selected line,
remembering how many characters were removed on the anchor and cursor
lines. -/
def do_tab_deindent_lines (tabsz anchor_line pos_line : Nat) :
    editor_state → List modification → Nat → Nat → List Nat →
    editor_state × List modification × Nat × Nat
  | s, g, nA, nP, [] => (s, g, nA, nP)
  | s, g, nA, nP, i :: rest =>
    let cline := line_str s.lines i
    let pr :=
      if decide (0 < cline.length) && decide (cline.getD 0 ' ' = '\t') then
        (trans_erase_characters s g ⟨⟨i, 0⟩, ⟨i, 1⟩⟩, 1)
      else
        let n := leading_spaces_capped cline tabsz 0
        (trans_erase_characters s g ⟨⟨i, 0⟩, ⟨i, n⟩⟩, n)
    do_tab_deindent_lines tabsz anchor_line pos_line pr.1.1 pr.1.2
      (if i = anchor_line then pr.2 else nA)
      (if i = pos_line then pr.2 else nP) rest

namespace editor_state

/-- The body of `std_edit_controller::do_tab` up to, but not including,
the commit that the transaction destructor performs at scope exit: block
(de)indent when the selection spans multiple lines or exactly one whole
non-empty line, otherwise insert/remove one indent unit at the caret.
Returns the mutated state and the accumulated transaction group. -/
def do_tab_core (s : editor_state) (shift : Bool) : editor_state × List modification :=
  let g : List modification := []
  let add_or_remove_indent :=
    if s.selected_range.start.line ≠ s.selected_range.stop.line then true
    else
      let cline := line_str s.lines s.pos.line
      decide (cline ≠ []) && decide (s.selected_range.start.column = 0) &&
        decide (s.selected_range.stop.column = cline.length)
  let res :=
    if add_or_remove_indent then
      let orig_pos := s.pos
      let orig_anchor_pos := s.anchor_pos
      if !shift then
        let chars := if s.expand_tabs then List.replicate s.tab_size ' ' else ['\t']
        let line_idxs :=
          (List.range (s.selected_range.stop.line + 1 - s.selected_range.start.line)).map
            (s.selected_range.start.line + ·)
        let pr := do_tab_indent_lines chars s g line_idxs
        let s := pr.1
        let s :=
          if orig_pos.line = orig_anchor_pos.line then
            if orig_pos.column = 0 then
              (s.set_pos_move_anchor
                ⟨orig_anchor_pos.line, orig_anchor_pos.column + chars.length⟩).set_pos_keep_anchor
                ⟨orig_pos.line, 0⟩
            else
              (s.set_pos_move_anchor ⟨orig_anchor_pos.line, 0⟩).set_pos_keep_anchor
                ⟨orig_pos.line, orig_pos.column + chars.length⟩
          else
            (s.set_pos_move_anchor
              ⟨orig_anchor_pos.line, orig_anchor_pos.column + chars.length⟩).set_pos_keep_anchor
              ⟨orig_pos.line, orig_pos.column + chars.length⟩
        (s, pr.2)
      else
        let first_line := s.selected_range.start.line
        let last_line := s.selected_range.stop.line
        let anchor_line := s.anchor_pos.line
        let pos_line := s.pos.line
        let line_idxs := (List.range (last_line + 1 - first_line)).map (first_line + ·)
        let acc := do_tab_deindent_lines s.tab_size anchor_line pos_line s g 0 0 line_idxs
        let n_anchor_line_removed := acc.2.2.1
        let n_pos_line_removed := acc.2.2.2
        let anchor_col := if orig_anchor_pos.column < n_anchor_line_removed then 0
          else orig_anchor_pos.column - n_anchor_line_removed
        let pos_col := if orig_pos.column < n_pos_line_removed then 0
          else orig_pos.column - n_pos_line_removed
        let s := acc.1
        let s := (s.set_pos_move_anchor ⟨orig_anchor_pos.line, anchor_col⟩).set_pos_keep_anchor
          ⟨orig_pos.line, pos_col⟩
        (s, acc.2.1)
    else
      if shift then
        if !s.selected_range.isEmpty then
          trans_erase_characters s g s.selected_range
        else
          let pos := s.selected_range.start
          let cline := line_str s.lines pos.line
          if pos.column ≠ 0 then
            if cline.getD (pos.column - 1) ' ' = '\t' then
              trans_erase_characters s g ⟨⟨pos.line, pos.column - 1⟩, ⟨pos.line, pos.column⟩⟩
            else
              let tsz := s.tab_size
              let min_col := if pos.column % tsz = 0 then pos.column - tsz
                else pos.column - pos.column % tsz
              let col := walk_back_spaces cline pos.column min_col
              trans_erase_characters s g ⟨⟨pos.line, col⟩, pos⟩
          else (s, g)
      else
        let pr := trans_erase_characters s g s.selected_range
        let s := pr.1
        if s.expand_tabs then
          let insert_pos := s.selected_range.start
          let num_spaces := s.tab_size - insert_pos.column % s.tab_size
          trans_insert_characters s pr.2 s.pos (List.replicate num_spaces ' ')
        else
          trans_insert_characters s pr.2 s.pos ['\t']
  res

/-- `std_edit_controller::do_tab`: the body followed by the commit that
the transaction destructor performs at scope exit. -/
def do_tab (s : editor_state) (shift : Bool) : editor_state :=
  commit_transaction (s.do_tab_core shift).1 (s.do_tab_core shift).2

end editor_state

mutual

/-- The dispatch body of `std_edit_controller::perform_undo`, entered with
history recording already disabled: Insert → select its range and delete;
Erase → go to its start and paste the saved characters; Replace → select
its range and paste `new_chars`; Group → recurse over the members in
forward order. -/
def perform_undo_core (s : editor_state) : modification → editor_state
  | .insert r _chars =>
    ((s.set_pos_move_anchor r.start).set_pos_keep_anchor r.stop).delete_op
  | .erase r chars =>
    (s.set_pos_move_anchor r.start).paste chars
  | .replace r _old_chars new_chars =>
    ((s.set_pos_move_anchor r.start).set_pos_keep_anchor r.stop).paste new_chars
  | .group mods => perform_undo_list s mods

/-- The `Group` branch of `perform_undo`: apply the full `perform_undo`
(with its history-disable/enable toggling) to every member, first to
last. -/
def perform_undo_list (s : editor_state) : List modification → editor_state
  | [] => s
  | m :: rest =>
    perform_undo_list
      { perform_undo_core { s with enable_history := false } m with enable_history := true }
      rest

end

/-- `std_edit_controller::perform_undo`: disables history recording,
dispatches on the modification kind, re-enables recording. -/
def perform_undo (s : editor_state) (m : modification) : editor_state :=
  { perform_undo_core { s with enable_history := false } m with enable_history := true }

/-- The dispatch body of `std_edit_controller::perform_redo`.  Note the
`Group` branch of the source calls `perform_undo` — not a redo dispatch —
on every member, in forward order. -/
def perform_redo_core (s : editor_state) : modification → editor_state
  | .insert r chars =>
    (s.set_pos_move_anchor r.start).paste chars
  | .erase r _chars =>
    ((s.set_pos_move_anchor r.start).set_pos_keep_anchor r.stop).delete_op
  | .replace r old_chars _new_chars =>
    ((s.set_pos_move_anchor r.start).set_pos_keep_anchor r.stop).paste old_chars
  | .group mods => perform_undo_list s mods

/-- `std_edit_controller::perform_redo`. -/
def perform_redo (s : editor_state) (m : modification) : editor_state :=
  { perform_redo_core { s with enable_history := false } m with enable_history := true }

namespace editor_state

/-- `std_edit_controller::undo`: if the history allows it, replay the
current undo modification and move it to the redo list. -/
def undo (s : editor_state) : editor_state :=
  match s.history.undo_mods.getLast? with
  | none => s
  | some m =>
    let s := perform_undo s m
    { s with history := s.history.undo }

/-- `std_edit_controller::redo`. -/
def redo (s : editor_state) : editor_state :=
  match s.history.redo_mods.getLast? with
  | none => s
  | some m =>
    let s := perform_redo s m
    { s with history := s.history.redo }

/-- `n` successive calls of `undo()`. -/
def undo_times : Nat → editor_state → editor_state
  | 0, s => s
  | n + 1, s => undo_times n s.undo

/-- `tmvc::clear` on the text model (editable_text_model.hpp): erases the
whole document directly on the model, without a history record. -/
def clear_text (s : editor_state) : editor_state :=
  s.model_erase ⟨⟨0, 0⟩, end_pos s.lines⟩

/-- `std_edit_controller::set_text`: clear the document, insert the new
content, move the cursor to the beginning, clear the history. -/
def set_text (s : editor_state) (t : List Char) : editor_state :=
  let s := s.clear_text
  let s := s.insert_chars_at s.pos t
  let s := s.set_pos_move_anchor ⟨0, 0⟩
  { s with history := s.history.clear }

end editor_state

/-- The notification signals of a text model (text_model.hpp).  Dispatch
is synchronous and single-threaded: each signal's fan-out to all of its
subscribers completes before the next signal in the trace is emitted, so
the order of a trace is exactly the order in which subscribers run. -/
inductive text_event where
  | before_inserted (r : range)
  | after_inserted (r : range)
  | after_inserted_2 (r : range)
  | before_erased (r : range)
  | after_erased (r : range)
  | after_erased_2 (r : range)
  | before_replaced (r : range)
  | after_replaced (r : range)
deriving DecidableEq, Repr

/-- Whether an event is one of the secondary (`_2`) signals. -/
def text_event.is_secondary : text_event → Bool
  | .after_inserted_2 _ => true
  | .after_erased_2 _ => true
  | _ => false

/-- The signal trace emitted by `basic_simple_text_model::insert`
(simple_text_model.ipp): `before_inserted`, the mutation, then
`after_inserted` and finally `after_inserted_2`; nothing for an empty
insertion. -/
def insert_events (lines : lines_t) (p : position) (chars : List Char) : List text_event :=
  if chars = [] then []
  else
    let r := (buffer_insert lines p chars).2
    [.before_inserted r, .after_inserted r, .after_inserted_2 r]

/-- The signal trace emitted by `basic_simple_text_model::erase`. -/
def erase_events (r : range) : List text_event :=
  if r.start = r.stop then []
  else [.before_erased r, .after_erased r, .after_erased_2 r]

/-- The signal trace emitted by `basic_simple_text_model::replace`:
`before_replaced` then `after_replaced`; there is no secondary signal. -/
def replace_events (_lines : lines_t) (p : position) (chars : List Char) : List text_event :=
  let r : range := ⟨p, ⟨p.line, p.column + chars.length⟩⟩
  [.before_replaced r, .after_replaced r]

/-- The signal slots of a text model. -/
inductive signal_kind where
  | before_inserted
  | after_inserted
  | after_inserted_2
  | before_erased
  | after_erased
  | after_erased_2
  | before_replaced
  | after_replaced
deriving DecidableEq, Repr

/-- The signals the `single_selection_model` constructor connects its
position re-derivation handlers to (single_selection_model.hpp lines
28–39): exactly `after_inserted_2` and `after_erased_2`. -/
def selection_model_subscriptions : List signal_kind :=
  [.after_inserted_2, .after_erased_2]

/-! ### Order lemmas for positions -/

theorem posLt_iff {a b : position} :
    posLt a b = true ↔ a.line < b.line ∨ (a.line = b.line ∧ a.column < b.column) := by
  unfold posLt
  by_cases h : a.line = b.line <;> simp [h]

theorem pos_eq_iff {a b : position} :
    a = b ↔ a.line = b.line ∧ a.column = b.column := by
  obtain ⟨al, ac⟩ := a
  obtain ⟨bl, bc⟩ := b
  simp

theorem posLe_iff {a b : position} :
    posLe a b = true ↔ a.line < b.line ∨ (a.line = b.line ∧ a.column ≤ b.column) := by
  unfold posLe
  rw [Bool.or_eq_true, posLt_iff, decide_eq_true_eq, pos_eq_iff]
  constructor
  · rintro ((h | ⟨h1, h2⟩) | ⟨h1, h2⟩) <;> omega
  · rintro (h | ⟨h1, h2⟩)
    · exact Or.inl (Or.inl h)
    · rcases Nat.lt_or_ge a.column b.column with hc | hc
      · exact Or.inl (Or.inr ⟨h1, hc⟩)
      · exact Or.inr ⟨h1, by omega⟩

theorem posGt_iff {a b : position} :
    posGt a b = true ↔ b.line < a.line ∨ (b.line = a.line ∧ b.column < a.column) := by
  unfold posGt
  rw [Bool.not_eq_true', ← Bool.not_eq_true, posLe_iff]
  constructor
  · intro h
    rcases Nat.lt_trichotomy a.line b.line with h1 | h1 | h1
    · exact absurd (Or.inl h1) h
    · rcases Nat.lt_or_ge b.column a.column with h2 | h2
      · exact Or.inr ⟨h1.symm, h2⟩
      · exact absurd (Or.inr ⟨h1, h2⟩) h
    · exact Or.inl h1
  · rintro (h | ⟨h1, h2⟩) <;> rintro (h' | ⟨h1', h2'⟩) <;> omega

end tmvc

open tmvc

/-! ## The claims -/

/-- C5.  For every insert and erase on the text buffer, the
`after_inserted_2` / `after_erased_2` signal appears in the emission trace
strictly after the corresponding primary `after_inserted` / `after_erased`
signal (dispatch is synchronous, so every subscriber of the primary signal
has finished before the secondary fires); `replace` emits no secondary
signal; and the selection model subscribes its re-derivation handlers to
the two secondary signals, not to the primary ones. -/
theorem C5_two_phase_signal_order :
    ∀ (lines : lines_t) (p : position) (chars : List Char) (r : range),
      (insert_events lines p chars = [] ∨
        ∃ ir, insert_events lines p chars =
          [.before_inserted ir, .after_inserted ir, .after_inserted_2 ir]) ∧
      (erase_events r = [] ∨
        erase_events r = [.before_erased r, .after_erased r, .after_erased_2 r]) ∧
      (∀ e ∈ replace_events lines p chars, e.is_secondary = false) ∧
      selection_model_subscriptions = [.after_inserted_2, .after_erased_2] ∧
      signal_kind.after_inserted ∉ selection_model_subscriptions ∧
      signal_kind.after_erased ∉ selection_model_subscriptions := by
  intro lines p chars r
  refine ⟨?_, ?_, ?_, rfl, by decide, by decide⟩
  · by_cases h : chars = []
    · exact Or.inl (by simp [insert_events, h])
    · exact Or.inr ⟨(buffer_insert lines p chars).2, by simp [insert_events, h]⟩
  · by_cases h : r.start = r.stop
    · exact Or.inl (by simp [erase_events, h])
    · exact Or.inr (by simp [erase_events, h])
  · intro e he
    simp only [replace_events, List.mem_cons, List.mem_singleton, List.not_mem_nil,
      or_false] at he
    rcases he with h | h <;> simp [h, text_event.is_secondary]

/-- C2.  Replaying a `Group` modification recurses over its members in the
same forward (first-to-last) order for undo and redo alike: the `Group`
branch of `perform_redo` dispatches every member through `perform_undo`,
so on groups `perform_redo` and `perform_undo` are the same function, and
the member list is consumed front first. -/
theorem C2_group_replay_forward_undo_dispatch :
    ∀ (s : editor_state) (mods : List modification),
      perform_redo s (.group mods) = perform_undo s (.group mods) ∧
      ∀ (m : modification) (rest : List modification),
        perform_undo_list s (m :: rest) = perform_undo_list (perform_undo s m) rest :=
  fun _ _ => ⟨rfl, fun _ _ => rfl⟩

/-- C8.  If the cursor lay strictly inside the erased span
(`range.start < pos ≤ range.end`), then after the buffer erase the
selection's cursor has collapsed to `range.start`, and the anchor has
collapsed there as well. -/
theorem C8_erase_collapses_selection :
    ∀ (s : editor_state) (r : range),
      posLt r.start s.pos = true → posLe s.pos r.stop = true →
      (s.model_erase r).pos = r.start ∧ (s.model_erase r).anchor_pos = r.start := by
  intro s r h1 h2
  have hne : ¬(r.start = r.stop) := by
    intro he
    rw [posLt_iff] at h1
    rw [posLe_iff] at h2
    rw [he] at h1
    omega
  have hgt : posGt s.pos r.stop = false := by
    simp [posGt, h2]
  simp [editor_state.model_erase, hne, on_after_erased, hgt, h1]

/-- A sample editor state used to instantiate C8: the single line `abc`
with cursor and anchor at `{0,2}`. -/
def c8_state : editor_state :=
  { lines := [['a', 'b', 'c']], pos := ⟨0, 2⟩, anchor_pos := ⟨0, 2⟩,
    history := modification_history.empty }

/-- Concrete instance for C8: erasing `{0,1}`–`{0,3}` of the line `abc`
with the cursor at `{0,2}` collapses cursor and anchor to `{0,1}`. -/
theorem C8_erase_collapses_selection_witness :
    (posLt ⟨0, 1⟩ (⟨0, 2⟩ : position) = true ∧ posLe ⟨0, 2⟩ (⟨0, 3⟩ : position) = true) ∧
    ((c8_state.model_erase ⟨⟨0, 1⟩, ⟨0, 3⟩⟩).pos = ⟨0, 1⟩ ∧
      (c8_state.model_erase ⟨⟨0, 1⟩, ⟨0, 3⟩⟩).anchor_pos = ⟨0, 1⟩) :=
  ⟨⟨by decide, by decide⟩,
    C8_erase_collapses_selection c8_state ⟨⟨0, 1⟩, ⟨0, 3⟩⟩ (by decide) (by decide)⟩

/-- C10.  `set_text` completely resets the modification history —
`can_undo()`, `can_redo()` and `changed()` are all false afterwards — and
puts cursor and anchor at `{0,0}`. -/
theorem C10_set_text_resets_history_and_cursor :
    ∀ (s : editor_state) (t : List Char),
      (s.set_text t).history.can_undo = false ∧
      (s.set_text t).history.can_redo = false ∧
      (s.set_text t).history.changed = false ∧
      (s.set_text t).pos = ⟨0, 0⟩ ∧
      (s.set_text t).anchor_pos = ⟨0, 0⟩ := by
  intro s t
  simp [editor_state.set_text, editor_state.set_pos_move_anchor,
    modification_history.clear, modification_history.empty,
    modification_history.can_undo, modification_history.can_redo,
    modification_history.changed]

/-- The `undo_mods` component of `modification_history::add` in closed
form. -/
theorem add_undo_mods (h : modification_history) (m : modification) :
    (h.add m).undo_mods =
      if 1000 < h.undo_mods.length + 1 then (h.undo_mods ++ [m]).tail
      else h.undo_mods ++ [m] := by
  simp only [modification_history.add, List.length_append, List.length_singleton]

/-- Helper for C4: iterated `add` starting from the empty history keeps
exactly the most recent 1000 modifications, in order. -/
theorem add_all_empty_undo_mods (ms : List modification) :
    (modification_history.add_all modification_history.empty ms).undo_mods =
      ms.drop (ms.length - 1000) := by
  induction ms using List.reverseRecOn with
  | nil => simp [modification_history.add_all, modification_history.empty]
  | append_singleton ms m ih =>
    have hstep : modification_history.add_all modification_history.empty (ms ++ [m]) =
        (modification_history.add_all modification_history.empty ms).add m := by
      simp [modification_history.add_all]
    rw [hstep, add_undo_mods, ih]
    rcases Nat.lt_or_ge ms.length 1000 with hlt | hge
    · have hdrop : ms.length - 1000 = 0 := by omega
      rw [hdrop, List.drop_zero]
      have hc : ¬(1000 < ms.length + 1) := by omega
      rw [if_neg hc]
      have hd2 : (ms ++ [m]).length - 1000 = 0 := by
        rw [List.length_append]; simp; omega
      rw [hd2, List.drop_zero]
    · have hlen : (ms.drop (ms.length - 1000)).length = 1000 := by
        rw [List.length_drop]; omega
      rw [if_pos (by omega)]
      have hne : ms.drop (ms.length - 1000) ≠ [] := by
        intro hnil
        rw [hnil] at hlen
        simp at hlen
      rw [List.tail_append_singleton_of_ne_nil hne, List.tail_drop]
      have h1 : (ms ++ [m]).length - 1000 = (ms.length - 1000) + 1 := by
        rw [List.length_append]; simp; omega
      rw [h1, List.drop_append_of_le_length (by omega)]

/-- C4.  Postcondition of `modification_history::add`: the modification is
pushed onto the undo stack with the oldest entry evicted whenever the
stack would exceed 1000 entries; the redo stack is cleared; the dirty
counter stays at the `INT_MAX` sentinel, snaps to the sentinel from a
negative value, and is incremented by one otherwise.  Consequently after
any sequence of adds the stack holds exactly the most recent 1000 entries
(so after more than 1000 adds the earliest modification has been lost)
while `can_undo()` is true whenever at least one add happened. -/
theorem C4_history_add_postcondition :
    ∀ (h : modification_history) (m : modification) (ms : List modification),
      (h.add m).redo_mods = [] ∧
      (h.add m).undo_mods =
        (if 1000 < h.undo_mods.length + 1 then (h.undo_mods ++ [m]).tail
         else h.undo_mods ++ [m]) ∧
      (h.add m).undo_redo_count =
        (if h.undo_redo_count = intMax then intMax
         else if h.undo_redo_count < 0 then intMax
         else h.undo_redo_count + 1) ∧
      (modification_history.add_all modification_history.empty ms).undo_mods =
        ms.drop (ms.length - 1000) ∧
      (modification_history.add_all modification_history.empty ms).can_undo = !ms.isEmpty := by
  intro h m ms
  refine ⟨?_, add_undo_mods h m, ?_, add_all_empty_undo_mods ms, ?_⟩
  · simp [modification_history.add]
  · by_cases hc : h.undo_redo_count = intMax
    · simp [modification_history.add, hc]
    · simp [modification_history.add, hc]
  · rw [modification_history.can_undo, add_all_empty_undo_mods ms]
    rcases ms with _ | ⟨m₀, ms₀⟩
    · simp
    · have hne : (m₀ :: ms₀).drop ((m₀ :: ms₀).length - 1000) ≠ [] := by
        intro hnil
        have hl := congrArg List.length hnil
        rw [List.length_drop] at hl
        simp at hl
        omega
      simp [List.isEmpty_iff, hne]
      omega

/-- A state exercising the `}`-dedent slip: `tab_size = 2`,
`expand_tabs = true`, buffer `x` / four spaces, cursor at the end of the
all-whitespace second line.  All conditions of the dedent heuristic hold
(non-first line, empty selection, cursor at line end, line non-empty and
all whitespace, indent extends the reference indent of line 0, which is
empty). -/
def c6_state : editor_state :=
  { lines := ["x".toList, "    ".toList], pos := ⟨1, 4⟩, anchor_pos := ⟨1, 4⟩,
    history := modification_history.empty, expand_tabs := true, tab_size := 2 }

/-- C6 (the code at the failing input).  With `tab_size = 2` the claim
expects `do_char('}')` to strip two trailing spaces before inserting `}`,
leaving the second line as two spaces + `}`.  The source instead compares
the last *four* characters (`cline.substr(cline.size() - 4, 4)`) against
a string of `tab_size` spaces, which cannot match for any tab size other
than 4, so nothing is removed: the result keeps all four spaces. -/
theorem C6_close_brace_dedent_failing_input :
    pos_is_valid c6_state.lines c6_state.pos = true ∧
    find_first_not_tab_space (line_str c6_state.lines 1) = none ∧
    (c6_state.do_char closeBrace).lines = ["x".toList, "    ".toList ++ [closeBrace]] ∧
    (c6_state.do_char closeBrace).lines ≠ ["x".toList, "  ".toList ++ [closeBrace]] :=
  ⟨by decide, by decide, by decide, by decide⟩

/-- The state of the spec's Scenario A as written: the two-line buffer
with cursor and anchor at `{1,14}`. -/
def scenario_a_state : editor_state :=
  { lines := ["\t   first line".toList, "second line".toList],
    pos := ⟨1, 14⟩, anchor_pos := ⟨1, 14⟩, history := modification_history.empty }

/-- C9 (counterexample).  In the two-line buffer of Scenario A the second
line (`second line`) has only 11 characters, so `{1,14}` is not a valid
position: the scenario's starting state violates `pos_is_valid`, which
`set_pos_and_anchor` asserts, and the claimed behaviour cannot hold. -/
theorem C9_scenario_a_counterexample :
    ¬(pos_is_valid scenario_a_state.lines scenario_a_state.pos = true ∧
      scenario_a_state.do_enter.lines =
        ["\t   first line".toList, "\t   ".toList, "second line".toList] ∧
      scenario_a_state.do_enter.pos = ⟨2, 4⟩) := by
  intro h
  exact absurd h.1 (by decide)

/-- The state of the `do_enter_indent` unit test
(editor_controller_test.cpp lines 521–531), from which Scenario A was
abridged: the same lines preceded by `  zzz`, making `{1,14}` the end of
the line `\t   first line`. -/
def scenario_a_test_state : editor_state :=
  { lines := ["  zzz".toList, "\t   first line".toList, "second line".toList],
    pos := ⟨1, 14⟩, anchor_pos := ⟨1, 14⟩, history := modification_history.empty }

/-- C9 (amended).  With the three-line buffer of the source's own unit
test — `  zzz` / `\t   first line` / `second line` — and cursor and anchor
at `{1,14}`, `do_enter(false,false)` inserts a newline plus the carried
indent `\t   `, giving the four-line buffer and cursor `{2,4}`. -/
theorem C9_scenario_a_amended :
    scenario_a_test_state.do_enter.lines =
      ["  zzz".toList, "\t   first line".toList, "\t   ".toList, "second line".toList] ∧
    scenario_a_test_state.do_enter.pos = ⟨2, 4⟩ ∧
    scenario_a_test_state.do_enter.anchor_pos = ⟨2, 4⟩ :=
  ⟨by decide, by decide, by decide⟩

/-! ### List surgery helpers -/

/-- `split_chars_aux` always produces at least one line. -/
theorem split_chars_aux_ne_nil (chars cur : List Char) : split_chars_aux chars cur ≠ [] := by
  induction chars generalizing cur with
  | nil => simp [split_chars_aux]
  | cons c rest ih =>
    unfold split_chars_aux
    by_cases h1 : c = '\r'
    · simpa [h1] using ih cur
    · by_cases h2 : c = '\n' || c = paraSep
      · simp [h1, h2]
      · simpa [h1, h2] using ih (cur ++ [c])

/-- The length of `List.take n` when `n` is within bounds. -/
theorem length_take_of_le {α : Type} {L : List α} {n : Nat} (h : n ≤ L.length) :
    (L.take n).length = n := by
  rw [List.length_take]
  exact Nat.min_eq_left h

/-- Decompose a list around the element at an in-bounds index. -/
theorem list_decomp {α : Type} (L : List α) (n : Nat) (d : α) (h : n < L.length) :
    L = L.take n ++ L.getD n d :: L.drop (n + 1) := by
  conv_lhs => rw [← List.take_append_drop n L]
  rw [List.drop_eq_getElem_cons h, List.getD_eq_getElem L d h]

/-- Setting the element right after a prefix. -/
theorem set_append_cons {α : Type} (A : List α) (x y : α) (B : List α) :
    (A ++ x :: B).set A.length y = A ++ y :: B := by
  induction A with
  | nil => rfl
  | cons a A ih => simp [ih]

/-- Reading the element right after a prefix. -/
theorem getD_append_at {α : Type} (A : List α) (x : α) (B : List α) (d : α) :
    (A ++ x :: B).getD A.length d = x := by
  rw [List.getD_append_right _ _ _ _ (Nat.le_refl _)]
  simp

/-- `buffer_insert` in explicit form when the characters split into a
single line. -/
theorem buffer_insert_single (lines : lines_t) (p : position) (chars : List Char)
    (n0 : List Char) (hc : chars ≠ []) (hs : split_chars_to_lines chars = [n0]) :
    buffer_insert lines p chars =
      (lines.take p.line ++
        ((line_str lines p.line).take p.column ++ n0 ++
          (line_str lines p.line).drop p.column) :: lines.drop (p.line + 1),
       ⟨p, ⟨p.line, p.column + n0.length⟩⟩) := by
  simp [buffer_insert, hc, hs]

/-- `buffer_insert` in explicit form when the characters split into at
least two lines. -/
theorem buffer_insert_multi (lines : lines_t) (p : position) (chars : List Char)
    (n0 : List Char) (ntail : List (List Char)) (hc : chars ≠ []) (hnt : ntail ≠ [])
    (hs : split_chars_to_lines chars = n0 :: ntail) :
    buffer_insert lines p chars =
      (lines.take p.line ++
        (((line_str lines p.line).take p.column ++ n0) ::
          (ntail.dropLast ++
            [ntail.getLast hnt ++ (line_str lines p.line).drop p.column])) ++
        lines.drop (p.line + 1),
       ⟨p, ⟨p.line + ntail.length, (ntail.getLast hnt).length⟩⟩) := by
  obtain ⟨n1, nrest, rfl⟩ : ∃ n1 nrest, ntail = n1 :: nrest := by
    cases ntail with
    | nil => exact absurd rfl hnt
    | cons a b => exact ⟨a, b, rfl⟩
  simp [buffer_insert, hc, hs, List.getLastD_cons, List.getLastD_eq_getLast?,
    List.getLast?_eq_getLast _ hnt]

/-- Reading at index `n` of `L.take n ++ x :: C`. -/
theorem getD_take_append_at {α : Type} (L : List α) (n : Nat) (hn : n ≤ L.length)
    (x : α) (C : List α) (d : α) :
    (L.take n ++ x :: C).getD n d = x := by
  have hA : (L.take n).length = n := length_take_of_le hn
  rw [List.getD_append_right _ _ _ _ (by rw [hA])]
  simp [hA]

/-- Taking the prefix back off `L.take n ++ B`. -/
theorem take_take_append {α : Type} (L : List α) (n : Nat) (hn : n ≤ L.length)
    (B : List α) :
    (L.take n ++ B).take n = L.take n := by
  have hA : (L.take n).length = n := length_take_of_le hn
  rw [List.take_append_of_le_length (by rw [hA]), List.take_take]
  simp

/-- Dropping the prefix off `L.take n ++ B`. -/
theorem drop_take_append {α : Type} (L : List α) (n : Nat) (hn : n ≤ L.length)
    (B : List α) :
    (L.take n ++ B).drop n = B := by
  have hA : (L.take n).length = n := length_take_of_le hn
  rw [List.drop_append_of_le_length (by rw [hA]),
    List.drop_eq_nil_of_le (by rw [hA])]
  simp

/-- Overwriting at index `n` of `L.take n ++ x :: C`. -/
theorem set_take_append_at {α : Type} (L : List α) (n : Nat) (hn : n ≤ L.length)
    (x y : α) (C : List α) :
    (L.take n ++ x :: C).set n y = L.take n ++ y :: C := by
  have hA : (L.take n).length = n := length_take_of_le hn
  rw [List.set_append, hA]
  simp

/-- Erasing the exact range returned by an insertion restores the
original buffer (the core of C7). -/
theorem buffer_erase_insert (lines : lines_t) (p : position) (chars : List Char)
    (h1 : p.line < lines.length)
    (h2 : p.column ≤ (line_str lines p.line).length) :
    buffer_erase (buffer_insert lines p chars).1 (buffer_insert lines p chars).2 = lines := by
  by_cases hc : chars = []
  · simp [buffer_insert, buffer_erase, hc]
  · obtain ⟨n0, ntail, hs⟩ : ∃ n0 ntail, split_chars_to_lines chars = n0 :: ntail := by
      cases hsp : split_chars_to_lines chars with
      | nil => exact absurd hsp (split_chars_aux_ne_nil chars [])
      | cons a b => exact ⟨a, b, rfl⟩
    have hA : (lines.take p.line).length = p.line := length_take_of_le (Nat.le_of_lt h1)
    have htc : ((line_str lines p.line).take p.column).length = p.column :=
      length_take_of_le h2
    by_cases hnt : ntail = []
    · subst hnt
      rw [buffer_insert_single lines p chars n0 hc hs]
      by_cases h0 : n0 = []
      · subst h0
        simp only [buffer_erase, List.nil_append, List.append_nil, List.length_nil,
          Nat.add_zero, if_true]
        rw [List.take_append_drop]
        exact (list_decomp lines p.line [] h1).symm
      · have hr : ¬(p = (⟨p.line, p.column + n0.length⟩ : position)) := by
          have hpos : 0 < n0.length := List.length_pos.mpr h0
          intro he
          have h3 : p.column = p.column + n0.length := congrArg position.column he
          omega
        simp only [buffer_erase]
        rw [if_neg hr]
        simp only [if_true]
        have hline : line_str
            (lines.take p.line ++
              ((line_str lines p.line).take p.column ++ n0 ++
                (line_str lines p.line).drop p.column) :: lines.drop (p.line + 1))
            p.line =
            (line_str lines p.line).take p.column ++ n0 ++
              (line_str lines p.line).drop p.column := by
          rw [line_str]
          exact getD_take_append_at lines p.line (Nat.le_of_lt h1) _ _ []
        rw [hline]
        have htake : ((line_str lines p.line).take p.column ++ n0 ++
            (line_str lines p.line).drop p.column).take p.column =
            (line_str lines p.line).take p.column := by
          rw [List.append_assoc, List.take_append_of_le_length (Nat.le_of_eq htc.symm),
            List.take_take]
          simp
        have hdrop : ((line_str lines p.line).take p.column ++ n0 ++
            (line_str lines p.line).drop p.column).drop (p.column + n0.length) =
            (line_str lines p.line).drop p.column := by
          have hl : ((line_str lines p.line).take p.column ++ n0).length =
              p.column + n0.length := by
            rw [List.length_append, htc]
          rw [← hl, List.drop_left]
        rw [htake, hdrop, List.take_append_drop,
          set_take_append_at lines p.line (Nat.le_of_lt h1) _ _ _]
        exact (list_decomp lines p.line [] h1).symm
    · rw [buffer_insert_multi lines p chars n0 ntail hc hnt hs]
      have hlsz : 0 < ntail.length := List.length_pos.mpr hnt
      have hrne : ¬(p = (⟨p.line + ntail.length, (ntail.getLast hnt).length⟩ : position)) := by
        intro he
        have hl : p.line = p.line + ntail.length := congrArg position.line he
        omega
      have hlinene : ¬(p.line = p.line + ntail.length) := by omega
      have hD : ntail.dropLast.length = ntail.length - 1 := List.length_dropLast ntail
      set l := line_str lines p.line with hldef
      set tc := l.take p.column with htcdef
      set dc := l.drop p.column with hdcdef
      set x := tc ++ n0 with hxdef
      set y := ntail.getLast hnt ++ dc with hydef
      set D := ntail.dropLast with hDdef
      set A := lines.take p.line with hAdef
      set C := lines.drop (p.line + 1) with hCdef
      simp only [buffer_erase]
      rw [if_neg hrne, if_neg hlinene]
      have hL2 : A ++ (x :: (D ++ [y])) ++ C = (A ++ x :: D) ++ y :: C := by
        simp [List.append_assoc]
      have hlenAD : (A ++ x :: D).length = p.line + ntail.length := by
        rw [List.length_append, List.length_cons, hA, hD]
        omega
      have hst : line_str (A ++ (x :: (D ++ [y])) ++ C) p.line = x := by
        rw [line_str, List.append_assoc, List.cons_append, hAdef]
        exact getD_take_append_at lines p.line (Nat.le_of_lt h1) x _ []
      have hend : line_str (A ++ (x :: (D ++ [y])) ++ C) (p.line + ntail.length) = y := by
        rw [line_str, hL2, ← hlenAD]
        exact getD_append_at _ y C []
      have htk : (A ++ (x :: (D ++ [y])) ++ C).take p.line = A := by
        rw [List.append_assoc, hAdef]
        exact take_take_append lines p.line (Nat.le_of_lt h1) _
      have hdp : (A ++ (x :: (D ++ [y])) ++ C).drop (p.line + ntail.length + 1) = C := by
        rw [hL2]
        have heq : p.line + ntail.length + 1 = (A ++ x :: D).length + 1 := by
          rw [hlenAD]
        rw [heq, List.drop_append]
        simp
      have hxtake : x.take p.column = tc := by
        rw [hxdef, List.take_append_of_le_length (Nat.le_of_eq htc.symm), htcdef,
          List.take_take]
        simp
      have hydrop : y.drop (ntail.getLast hnt).length = dc := by
        rw [hydef, List.drop_left]
      rw [hst, hend, htk, hdp, hxtake, hydrop]
      rw [htcdef, hdcdef, List.take_append_drop, hAdef, hCdef, hldef]
      simpa [line_str] using (list_decomp lines p.line [] h1).symm

/-- C7.  Insert and erase are mutual inverses: for every valid position
`p` and every character sequence `s`, erasing the range returned by
`insert(p, s)` restores the buffer to exactly its pre-insert line
contents, and the document end position returns to its original value. -/
theorem C7_erase_insert_inverse :
    ∀ (lines : lines_t) (p : position) (chars : List Char),
      pos_is_valid lines p = true →
      buffer_erase (buffer_insert lines p chars).1 (buffer_insert lines p chars).2 = lines ∧
      end_pos (buffer_erase (buffer_insert lines p chars).1 (buffer_insert lines p chars).2) =
        end_pos lines := by
  intro lines p chars hv
  simp only [pos_is_valid, Bool.and_eq_true, decide_eq_true_eq] at hv
  have h := buffer_erase_insert lines p chars hv.1 hv.2
  exact ⟨h, by rw [h]⟩

/-- Concrete instance for C7: inserting `x\ny` mid-line in a two-line
buffer and erasing the returned range restores the buffer. -/
theorem C7_erase_insert_inverse_witness :
    pos_is_valid [['a', 'b'], ['c']] ⟨0, 1⟩ = true ∧
    (buffer_erase (buffer_insert [['a', 'b'], ['c']] ⟨0, 1⟩ ['x', '\n', 'y']).1
        (buffer_insert [['a', 'b'], ['c']] ⟨0, 1⟩ ['x', '\n', 'y']).2 = [['a', 'b'], ['c']] ∧
      end_pos (buffer_erase (buffer_insert [['a', 'b'], ['c']] ⟨0, 1⟩ ['x', '\n', 'y']).1
        (buffer_insert [['a', 'b'], ['c']] ⟨0, 1⟩ ['x', '\n', 'y']).2) =
        end_pos [['a', 'b'], ['c']]) :=
  ⟨by decide, C7_erase_insert_inverse [['a', 'b'], ['c']] ⟨0, 1⟩ ['x', '\n', 'y'] (by decide)⟩

/-! ### Clean buffers and the structure of `split_chars_to_lines` -/

/-- A character that is neither a line break (`'\n'`, U+2029) nor a
carriage return. -/
def clean_char (c : Char) : Prop :=
  c ≠ '\n' ∧ c ≠ '\r' ∧ c ≠ paraSep

/-- A buffer whose lines contain no line-break or carriage-return
characters — the invariant every buffer built through the text model's own
`insert`/`erase` satisfies. -/
def clean_lines (lines : lines_t) : Prop :=
  ∀ l ∈ lines, ∀ c ∈ l, clean_char c

theorem split_cons_cr (cs cur : List Char) :
    split_chars_aux ('\r' :: cs) cur = split_chars_aux cs cur := by
  conv_lhs => unfold split_chars_aux
  rw [if_pos rfl]

theorem split_cons_break (c : Char) (cs cur : List Char) (h1 : ¬(c = '\r'))
    (h2 : (c = '\n' || c = paraSep) = true) :
    split_chars_aux (c :: cs) cur = cur :: split_chars_aux cs [] := by
  conv_lhs => unfold split_chars_aux
  rw [if_neg h1, if_pos h2]

theorem split_cons_other (c : Char) (cs cur : List Char) (h1 : ¬(c = '\r'))
    (h2 : ¬((c = '\n' || c = paraSep) = true)) :
    split_chars_aux (c :: cs) cur = split_chars_aux cs (cur ++ [c]) := by
  conv_lhs => unfold split_chars_aux
  rw [if_neg h1, if_neg h2]

theorem split_chars_aux_skip_clean (A : List Char) :
    ∀ (rest cur : List Char), (∀ c ∈ A, clean_char c) →
    split_chars_aux (A ++ rest) cur = split_chars_aux rest (cur ++ A) := by
  induction A with
  | nil => intro rest cur _; simp
  | cons a A ih =>
    intro rest cur h
    have ha := h a (by simp)
    have h2 : ¬((a = '\n' || a = paraSep) = true) := by
      simp [ha.1, ha.2.2]
    rw [List.cons_append, split_cons_other a (A ++ rest) cur ha.2.1 h2,
      ih rest (cur ++ [a]) (fun c hc => h c (by simp [hc]))]
    simp

theorem split_chars_aux_clean_single (A cur : List Char)
    (h : ∀ c ∈ A, clean_char c) :
    split_chars_aux A cur = [cur ++ A] := by
  have h0 := split_chars_aux_skip_clean A [] cur h
  rw [List.append_nil] at h0
  rw [h0]
  simp [split_chars_aux]

theorem split_chars_aux_head (chars : List Char) :
    ∀ cur, ∃ t rest, split_chars_aux chars cur = (cur ++ t) :: rest := by
  induction chars with
  | nil => intro cur; exact ⟨[], [], by simp [split_chars_aux]⟩
  | cons c cs ih =>
    intro cur
    unfold split_chars_aux
    by_cases h1 : c = '\r'
    · simpa [h1] using ih cur
    · by_cases h2 : (c = '\n' || c = paraSep) = true
      · exact ⟨[], split_chars_aux cs [], by rw [if_neg h1, if_pos h2]; simp⟩
      · obtain ⟨t, rest, ht⟩ := ih (cur ++ [c])
        refine ⟨[c] ++ t, rest, ?_⟩
        rw [if_neg h1, if_neg h2, ht]
        simp

theorem split_chars_aux_clean (chars : List Char) :
    ∀ cur, (∀ c ∈ cur, clean_char c) →
    ∀ l ∈ split_chars_aux chars cur, ∀ c ∈ l, clean_char c := by
  induction chars with
  | nil =>
    intro cur hcur l hl
    simp [split_chars_aux] at hl
    subst hl
    exact hcur
  | cons c cs ih =>
    intro cur hcur l hl
    unfold split_chars_aux at hl
    by_cases h1 : c = '\r'
    · rw [if_pos h1] at hl
      exact ih cur hcur l hl
    · rw [if_neg h1] at hl
      by_cases h2 : (c = '\n' || c = paraSep) = true
      · rw [if_pos h2] at hl
        rcases List.mem_cons.mp hl with rfl | hl'
        · exact hcur
        · exact ih [] (by simp) l hl'
      · rw [if_neg h2] at hl
        refine ih (cur ++ [c]) ?_ l hl
        intro d hd
        rcases List.mem_append.mp hd with hd' | hd'
        · exact hcur d hd'
        · simp at hd'
          subst hd'
          simp only [Bool.or_eq_true, decide_eq_true_eq, not_or] at h2
          exact ⟨h2.1, h1, h2.2⟩

theorem split_chars_aux_single_nonempty (chars : List Char) :
    ∀ cur n0, (∃ c ∈ chars, c ≠ '\r') → split_chars_aux chars cur = [n0] →
    n0 ≠ [] := by
  induction chars with
  | nil =>
    intro cur n0 hw _
    simp at hw
  | cons c cs ih =>
    intro cur n0 hw hs
    unfold split_chars_aux at hs
    by_cases h1 : c = '\r'
    · rw [if_pos h1] at hs
      refine ih cur n0 ?_ hs
      rcases hw with ⟨d, hd, hdne⟩
      rcases List.mem_cons.mp hd with rfl | hd'
      · exact absurd h1 hdne
      · exact ⟨d, hd', hdne⟩
    · rw [if_neg h1] at hs
      by_cases h2 : (c = '\n' || c = paraSep) = true
      · rw [if_pos h2] at hs
        cases hs' : split_chars_aux cs [] with
        | nil => exact absurd hs' (split_chars_aux_ne_nil cs [])
        | cons a b =>
          rw [hs'] at hs
          simp at hs
      · rw [if_neg h2] at hs
        obtain ⟨t, rest, ht⟩ := split_chars_aux_head cs (cur ++ [c])
        rw [ht] at hs
        simp only [List.cons.injEq] at hs
        rcases hs with ⟨hn0, -⟩
        subst hn0
        simp

theorem clean_line_str (lines : lines_t) (h : clean_lines lines) (i : Nat) :
    ∀ c ∈ line_str lines i, clean_char c := by
  intro c hc
  rw [line_str] at hc
  by_cases hi : i < lines.length
  · rw [List.getD_eq_getElem lines [] hi] at hc
    exact h _ (List.getElem_mem hi) c hc
  · rw [List.getD_eq_default lines [] (Nat.le_of_not_lt hi)] at hc
    exact absurd hc (List.not_mem_nil c)

/-- `List.set` in decomposed form. -/
theorem set_eq_decomp {α : Type} (L : List α) (n : Nat) (x : α) (d : α)
    (h : n < L.length) :
    L.set n x = L.take n ++ x :: L.drop (n + 1) := by
  conv_lhs => rw [list_decomp L n d h]
  exact set_take_append_at L n (Nat.le_of_lt h) _ x _

theorem clean_buffer_erase (lines : lines_t) (r : range) (h : clean_lines lines) :
    clean_lines (buffer_erase lines r) := by
  unfold buffer_erase
  split
  · exact h
  · split
    · intro l hl
      rcases List.mem_or_eq_of_mem_set hl with hl' | rfl
      · exact h l hl'
      · intro c hc
        rcases List.mem_append.mp hc with hc' | hc'
        · exact clean_line_str lines h _ c (List.take_subset _ _ hc')
        · exact clean_line_str lines h _ c (List.drop_subset _ _ hc')
    · intro l hl
      rcases List.mem_append.mp hl with hl' | hl'
      · rcases List.mem_append.mp hl' with hl'' | hl''
        · exact h l (List.take_subset _ _ hl'')
        · intro c hc
          rw [List.mem_singleton] at hl''
          subst hl''
          rcases List.mem_append.mp hc with hc' | hc'
          · exact clean_line_str lines h _ c (List.take_subset _ _ hc')
          · exact clean_line_str lines h _ c (List.drop_subset _ _ hc')
      · exact h l (List.drop_subset _ _ hl')

theorem clean_buffer_insert (lines : lines_t) (p : position) (chars : List Char)
    (h : clean_lines lines) :
    clean_lines (buffer_insert lines p chars).1 := by
  by_cases hc : chars = []
  · simpa [buffer_insert, hc] using h
  · have hsplit : ∀ l ∈ split_chars_to_lines chars, ∀ c ∈ l, clean_char c :=
      split_chars_aux_clean chars [] (by simp)
    have hline := clean_line_str lines h p.line
    obtain ⟨n0, ntail, hs⟩ : ∃ n0 ntail, split_chars_to_lines chars = n0 :: ntail := by
      cases hsp : split_chars_to_lines chars with
      | nil => exact absurd hsp (split_chars_aux_ne_nil chars [])
      | cons a b => exact ⟨a, b, rfl⟩
    have hn0 : ∀ c ∈ n0, clean_char c := fun c hc' =>
      hsplit n0 (by rw [hs]; exact List.mem_cons_self _ _) c hc'
    have hnt : ∀ l ∈ ntail, ∀ c ∈ l, clean_char c := fun l hl c hc' =>
      hsplit l (by rw [hs]; exact List.mem_cons_of_mem _ hl) c hc'
    by_cases hx : ntail = []
    · subst hx
      rw [buffer_insert_single lines p chars n0 hc hs]
      intro l hl
      rcases List.mem_append.mp hl with hl' | hl'
      · exact h l (List.take_subset _ _ hl')
      · rcases List.mem_cons.mp hl' with rfl | hl''
        · intro c hc'
          rcases List.mem_append.mp hc' with hc'' | hc''
          · rcases List.mem_append.mp hc'' with hc3 | hc3
            · exact hline c (List.take_subset _ _ hc3)
            · exact hn0 c hc3
          · exact hline c (List.drop_subset _ _ hc'')
        · exact h l (List.drop_subset _ _ hl'')
    · rw [buffer_insert_multi lines p chars n0 ntail hc hx hs]
      intro l hl
      rcases List.mem_append.mp hl with hl' | hl'
      · rcases List.mem_append.mp hl' with hl'' | hl''
        · exact h l (List.take_subset _ _ hl'')
        · rcases List.mem_cons.mp hl'' with rfl | hl3
          · intro c hc'
            rcases List.mem_append.mp hc' with hc'' | hc''
            · exact hline c (List.take_subset _ _ hc'')
            · exact hn0 c hc''
          · rcases List.mem_append.mp hl3 with hl4 | hl4
            · exact hnt l (List.dropLast_subset _ hl4)
            · rw [List.mem_singleton] at hl4
              subst hl4
              intro c hc'
              rcases List.mem_append.mp hc' with hc'' | hc''
              · exact hnt _ (List.getLast_mem hx) c hc''
              · exact hline c (List.drop_subset _ _ hc'')
      · exact h l (List.drop_subset _ _ hl')

theorem buffer_insert_range_start (lines : lines_t) (p : position) (chars : List Char) :
    (buffer_insert lines p chars).2.start = p := by
  by_cases hc : chars = [] <;> simp [buffer_insert, hc]

theorem posLe_refl (p : position) : posLe p p = true := by
  rw [posLe_iff]
  exact Or.inr ⟨rfl, Nat.le_refl _⟩

theorem buffer_insert_range_le (lines : lines_t) (p : position) (chars : List Char) :
    posLe p (buffer_insert lines p chars).2.stop = true := by
  by_cases hc : chars = []
  · simp only [buffer_insert, hc, if_true, if_pos]
    exact posLe_refl p
  · obtain ⟨n0, ntail, hs⟩ : ∃ n0 ntail, split_chars_to_lines chars = n0 :: ntail := by
      cases hsp : split_chars_to_lines chars with
      | nil => exact absurd hsp (split_chars_aux_ne_nil chars [])
      | cons a b => exact ⟨a, b, rfl⟩
    by_cases hx : ntail = []
    · subst hx
      rw [buffer_insert_single lines p chars n0 hc hs, posLe_iff]
      exact Or.inr ⟨rfl, Nat.le_add_right _ _⟩
    · rw [buffer_insert_multi lines p chars n0 ntail hc hx hs, posLe_iff]
      exact Or.inl (by simp [Nat.lt_add_of_pos_right (List.length_pos.mpr hx)])

theorem buffer_insert_range_nonempty (lines : lines_t) (p : position)
    (chars : List Char) (hw : ∃ c ∈ chars, c ≠ '\r') :
    (buffer_insert lines p chars).2.start ≠ (buffer_insert lines p chars).2.stop := by
  have hc : chars ≠ [] := by
    rcases hw with ⟨c, hc', -⟩
    intro he
    rw [he] at hc'
    exact absurd hc' (List.not_mem_nil c)
  obtain ⟨n0, ntail, hs⟩ : ∃ n0 ntail, split_chars_to_lines chars = n0 :: ntail := by
    cases hsp : split_chars_to_lines chars with
    | nil => exact absurd hsp (split_chars_aux_ne_nil chars [])
    | cons a b => exact ⟨a, b, rfl⟩
  by_cases hx : ntail = []
  · subst hx
    have hn0 : n0 ≠ [] := split_chars_aux_single_nonempty chars [] n0 hw hs
    rw [buffer_insert_single lines p chars n0 hc hs]
    intro he
    have h3 : p.column = p.column + n0.length := congrArg position.column he
    have : 0 < n0.length := List.length_pos.mpr hn0
    omega
  · rw [buffer_insert_multi lines p chars n0 ntail hc hx hs]
    intro he
    have h3 : p.line = p.line + ntail.length := congrArg position.line he
    have : 0 < ntail.length := List.length_pos.mpr hx
    omega

theorem buffer_insert_end_valid (lines : lines_t) (p : position) (chars : List Char)
    (h1 : p.line < lines.length) (h2 : p.column ≤ (line_str lines p.line).length)
    (hc : chars ≠ []) :
    pos_is_valid (buffer_insert lines p chars).1 (buffer_insert lines p chars).2.stop
      = true := by
  obtain ⟨n0, ntail, hs⟩ : ∃ n0 ntail, split_chars_to_lines chars = n0 :: ntail := by
    cases hsp : split_chars_to_lines chars with
    | nil => exact absurd hsp (split_chars_aux_ne_nil chars [])
    | cons a b => exact ⟨a, b, rfl⟩
  have hA : (lines.take p.line).length = p.line := length_take_of_le (Nat.le_of_lt h1)
  have htc : ((line_str lines p.line).take p.column).length = p.column :=
    length_take_of_le h2
  simp only [pos_is_valid, Bool.and_eq_true, decide_eq_true_eq]
  by_cases hx : ntail = []
  · subst hx
    rw [buffer_insert_single lines p chars n0 hc hs]
    constructor
    · simp only [List.length_append, List.length_cons, hA, List.length_drop]
      omega
    · have hline : line_str
          (lines.take p.line ++
            ((line_str lines p.line).take p.column ++ n0 ++
              (line_str lines p.line).drop p.column) :: lines.drop (p.line + 1))
          p.line =
          (line_str lines p.line).take p.column ++ n0 ++
            (line_str lines p.line).drop p.column := by
        rw [line_str]
        exact getD_take_append_at lines p.line (Nat.le_of_lt h1) _ _ []
      rw [hline]
      simp only [List.length_append, htc]
      omega
  · rw [buffer_insert_multi lines p chars n0 ntail hc hx hs]
    have hlast : ((lines.take p.line ++
        (((line_str lines p.line).take p.column ++ n0) ::
          (ntail.dropLast ++
            [ntail.getLast hx ++ (line_str lines p.line).drop p.column])) ++
        lines.drop (p.line + 1))).getD (p.line + ntail.length) [] =
        ntail.getLast hx ++ (line_str lines p.line).drop p.column := by
      have hL2 : lines.take p.line ++
          (((line_str lines p.line).take p.column ++ n0) ::
            (ntail.dropLast ++
              [ntail.getLast hx ++ (line_str lines p.line).drop p.column])) ++
          lines.drop (p.line + 1) =
          (lines.take p.line ++
            ((line_str lines p.line).take p.column ++ n0) :: ntail.dropLast) ++
          (ntail.getLast hx ++ (line_str lines p.line).drop p.column) ::
            lines.drop (p.line + 1) := by
        simp [List.append_assoc]
      have hlenAD : (lines.take p.line ++
          ((line_str lines p.line).take p.column ++ n0) :: ntail.dropLast).length =
          p.line + ntail.length := by
        have := List.length_pos.mpr hx
        simp only [List.length_append, List.length_cons, hA, List.length_dropLast]
        omega
      rw [hL2, ← hlenAD]
      exact getD_append_at _ _ _ []
    constructor
    · have := List.length_pos.mpr hx
      simp only [List.length_append, List.length_cons, hA, List.length_drop,
        List.length_dropLast, List.length_singleton]
      omega
    · simp only [line_str] at hlast ⊢
      rw [hlast]
      simp only [List.length_append]
      omega

theorem line_end_next_line (lines : lines_t) (p : position)
    (h1 : p.line < lines.length) (hne : p ≠ end_pos lines)
    (hv : p.column ≤ (line_str lines p.line).length)
    (h2 : ¬(p.column < (line_str lines p.line).length)) :
    p.line + 1 < lines.length := by
  by_contra h
  apply hne
  have hl : p.line = lines.length - 1 := by omega
  have hc : p.column = (line_str lines p.line).length := by omega
  have : p = (⟨lines.length - 1, (line_str lines (lines.length - 1)).length⟩ : position) := by
    rw [pos_eq_iff]
    refine ⟨hl, ?_⟩
    rw [← hl]
    exact hc
  exact this

/-- The characters of the one-character range starting at a mid-line
position. -/
theorem char_at_slice {L : List Char} {c : Nat} (h : c < L.length) :
    (L.take (c + 1)).drop c = [L.getD c ' '] := by
  have hstep : L.take (c + 1) = L.take c ++ [L.getD c ' '] := by
    rw [List.take_succ, List.getElem?_eq_getElem h, List.getD_eq_getElem L ' ' h]
    simp
  rw [hstep]
  exact drop_take_append L c (Nat.le_of_lt h) _

theorem split_single_clean_char (x : Char) (hx : clean_char x) :
    split_chars_to_lines [x] = [[x]] := by
  rw [split_chars_to_lines,
    split_cons_other x [] [] hx.2.1 (by simp [hx.1, hx.2.2])]
  rfl

/-- Re-inserting the erased single character (or line break) restores the
buffer: the inverse direction used by undo of `do_delete`/`do_backspace`. -/
theorem single_char_restore (lines : lines_t) (p : position)
    (hcl : clean_lines lines)
    (h1 : p.line < lines.length) (h2 : p.column ≤ (line_str lines p.line).length)
    (hne : p ≠ end_pos lines) :
    (buffer_insert (buffer_erase lines ⟨p, next_pos lines p⟩) p
      (characters_str lines ⟨p, next_pos lines p⟩)).1 = lines := by
  by_cases hmid : p.column < (line_str lines p.line).length
  · -- a character inside the line
    have hnext : next_pos lines p = ⟨p.line, p.column + 1⟩ := by
      rw [next_pos, if_pos hmid]
    rw [hnext]
    have hchars : characters_str lines ⟨p, ⟨p.line, p.column + 1⟩⟩ =
        [(line_str lines p.line).getD p.column ' '] := by
      rw [characters_str, if_pos rfl]
      exact char_at_slice hmid
    have hx : clean_char ((line_str lines p.line).getD p.column ' ') := by
      apply clean_line_str lines hcl p.line
      rw [List.getD_eq_getElem _ ' ' hmid]
      exact List.getElem_mem hmid
    have hrne : ¬(p = (⟨p.line, p.column + 1⟩ : position)) := by
      intro he
      have h3 : p.column = p.column + 1 := congrArg position.column he
      omega
    have herase : buffer_erase lines ⟨p, ⟨p.line, p.column + 1⟩⟩ =
        lines.take p.line ++
          ((line_str lines p.line).take p.column ++
            (line_str lines p.line).drop (p.column + 1)) :: lines.drop (p.line + 1) := by
      rw [buffer_erase]
      rw [if_neg hrne, if_pos rfl]
      exact set_eq_decomp lines p.line _ [] h1
    rw [hchars, herase]
    rw [buffer_insert_single _ p _ _ (by simp)
      (split_single_clean_char _ hx)]
    have hz : line_str
        (lines.take p.line ++
          ((line_str lines p.line).take p.column ++
            (line_str lines p.line).drop (p.column + 1)) :: lines.drop (p.line + 1))
        p.line =
        (line_str lines p.line).take p.column ++
          (line_str lines p.line).drop (p.column + 1) := by
      rw [line_str]
      exact getD_take_append_at lines p.line (Nat.le_of_lt h1) _ _ []
    rw [hz]
    have htc : ((line_str lines p.line).take p.column).length = p.column :=
      length_take_of_le h2
    have htk : ((line_str lines p.line).take p.column ++
        (line_str lines p.line).drop (p.column + 1)).take p.column =
        (line_str lines p.line).take p.column := by
      rw [List.take_append_of_le_length (Nat.le_of_eq htc.symm), List.take_take]
      simp
    have hdp : ((line_str lines p.line).take p.column ++
        (line_str lines p.line).drop (p.column + 1)).drop p.column =
        (line_str lines p.line).drop (p.column + 1) :=
      drop_take_append _ p.column h2 _
    rw [htk, hdp]
    have htake : (lines.take p.line ++
        ((line_str lines p.line).take p.column ++
          (line_str lines p.line).drop (p.column + 1)) :: lines.drop (p.line + 1)).take
        p.line = lines.take p.line :=
      take_take_append lines p.line (Nat.le_of_lt h1) _
    have hdrop : (lines.take p.line ++
        ((line_str lines p.line).take p.column ++
          (line_str lines p.line).drop (p.column + 1)) :: lines.drop (p.line + 1)).drop
        (p.line + 1) = lines.drop (p.line + 1) := by
      have hA : (lines.take p.line).length = p.line :=
        length_take_of_le (Nat.le_of_lt h1)
      have h4 : p.line + 1 = (lines.take p.line).length + 1 := by rw [hA]
      rw [h4, List.drop_append]
      simp
    rw [htake, hdrop]
    have hl : (line_str lines p.line).take p.column ++
        [(line_str lines p.line).getD p.column ' '] ++
        (line_str lines p.line).drop (p.column + 1) = line_str lines p.line := by
      rw [List.append_assoc, List.singleton_append]
      exact (list_decomp (line_str lines p.line) p.column ' ' hmid).symm
    rw [hl]
    exact (list_decomp lines p.line [] h1).symm
  · -- the implicit newline at line end
    have hl2 : p.line + 1 < lines.length := line_end_next_line lines p h1 hne h2 hmid
    have hlen : p.column = (line_str lines p.line).length := by omega
    have hnext : next_pos lines p = ⟨p.line + 1, 0⟩ := by
      rw [next_pos, if_neg hmid]
    rw [hnext]
    have hlinene : ¬(p.line = p.line + 1) := by omega
    have hchars : characters_str lines ⟨p, ⟨p.line + 1, 0⟩⟩ = ['\n'] := by
      rw [characters_str, if_neg hlinene]
      simp [List.drop_eq_nil_of_le (Nat.le_of_eq hlen.symm)]
    have hrne : ¬(p = (⟨p.line + 1, 0⟩ : position)) := by
      intro he
      have h3 : p.line = p.line + 1 := congrArg position.line he
      omega
    have herase : buffer_erase lines ⟨p, ⟨p.line + 1, 0⟩⟩ =
        lines.take p.line ++
          (line_str lines p.line ++ line_str lines (p.line + 1)) ::
          lines.drop (p.line + 2) := by
      rw [buffer_erase, if_neg hrne, if_neg hlinene]
      simp [List.take_of_length_le (Nat.le_of_eq hlen.symm)]
    rw [hchars, herase]
    have hsplitn : split_chars_to_lines ['\n'] = [[], []] := by decide
    rw [buffer_insert_multi _ p _ [] [[]] (by simp) (by simp) hsplitn]
    have hz : line_str
        (lines.take p.line ++
          (line_str lines p.line ++ line_str lines (p.line + 1)) ::
          lines.drop (p.line + 2)) p.line =
        line_str lines p.line ++ line_str lines (p.line + 1) := by
      rw [line_str]
      exact getD_take_append_at lines p.line (Nat.le_of_lt h1) _ _ []
    rw [hz]
    have htk : (line_str lines p.line ++ line_str lines (p.line + 1)).take p.column =
        line_str lines p.line := by
      rw [hlen, List.take_left]
    have hdp : (line_str lines p.line ++ line_str lines (p.line + 1)).drop p.column =
        line_str lines (p.line + 1) := by
      rw [hlen, List.drop_left]
    rw [htk, hdp]
    have htake : (lines.take p.line ++
        (line_str lines p.line ++ line_str lines (p.line + 1)) ::
        lines.drop (p.line + 2)).take p.line = lines.take p.line :=
      take_take_append lines p.line (Nat.le_of_lt h1) _
    have hdrop : (lines.take p.line ++
        (line_str lines p.line ++ line_str lines (p.line + 1)) ::
        lines.drop (p.line + 2)).drop (p.line + 1) = lines.drop (p.line + 2) := by
      have hA : (lines.take p.line).length = p.line :=
        length_take_of_le (Nat.le_of_lt h1)
      have h4 : p.line + 1 = (lines.take p.line).length + 1 := by rw [hA]
      rw [h4, List.drop_append]
      simp
    rw [htake, hdrop]
    simp only [List.dropLast_single, List.nil_append, List.append_nil]
    have hd1 : lines.drop (p.line + 1) =
        line_str lines (p.line + 1) :: lines.drop (p.line + 2) := by
      rw [List.drop_eq_getElem_cons hl2, line_str, List.getD_eq_getElem lines [] hl2]
    have hgl : ([[]] : List (List Char)).getLast (by simp) = [] := rfl
    rw [hgl]
    simp only [List.nil_append]
    rw [show (p.line + 2) = (p.line + 1 + 1) from rfl] at hd1 ⊢
    calc lines.take p.line ++
        (line_str lines p.line :: [line_str lines (p.line + 1)]) ++
          lines.drop (p.line + 1 + 1)
        = lines.take p.line ++ line_str lines p.line ::
            (line_str lines (p.line + 1) :: lines.drop (p.line + 1 + 1)) := by simp
      _ = lines.take p.line ++ line_str lines p.line :: lines.drop (p.line + 1) := by
          rw [← hd1]
      _ = lines := by
          rw [line_str]
          exact (list_decomp lines p.line [] h1).symm

/-! ### Cursor movement and selection re-derivation lemmas -/

theorem posLe_next (lines : lines_t) (p : position) :
    posLe p (next_pos lines p) = true := by
  rw [next_pos]
  split
  · rw [posLe_iff]
    exact Or.inr ⟨rfl, Nat.le_succ _⟩
  · rw [posLe_iff]
    exact Or.inl (Nat.lt_succ_self _)

theorem next_pos_ne (lines : lines_t) (p : position) : next_pos lines p ≠ p := by
  rw [next_pos]
  split <;> intro h
  · have := congrArg position.column h
    simp at this
  · have := congrArg position.line h
    simp at this

theorem posLt_prev (lines : lines_t) (p : position) (h : p ≠ ⟨0, 0⟩) :
    posLt (prev_pos lines p) p = true := by
  rw [prev_pos]
  split
  · rw [posLt_iff]
    right
    constructor
    · rfl
    · simp
      omega
  · have hc : p.column = 0 := by omega
    have hl : p.line ≠ 0 := by
      intro h0
      apply h
      rw [pos_eq_iff]
      exact ⟨h0, hc⟩
    rw [posLt_iff]
    left
    simp
    omega

theorem posLt_ne {a b : position} (h : posLt a b = true) : a ≠ b := by
  rw [posLt_iff] at h
  intro he
  rw [pos_eq_iff] at he
  omega

theorem posLe_end_pos (lines : lines_t) (p : position)
    (h : pos_is_valid lines p = true) :
    posLe p (end_pos lines) = true := by
  simp only [pos_is_valid, Bool.and_eq_true, decide_eq_true_eq] at h
  rw [posLe_iff, end_pos]
  rcases Nat.lt_or_ge p.line (lines.length - 1) with hl | hl
  · left
    exact hl
  · right
    have hline : p.line = lines.length - 1 := by omega
    refine ⟨hline, ?_⟩
    simp only []
    rw [← hline]
    exact h.2

theorem next_prev_pos (lines : lines_t) (p : position) (h : p ≠ ⟨0, 0⟩)
    (hv : pos_is_valid lines p = true) :
    next_pos lines (prev_pos lines p) = p := by
  simp only [pos_is_valid, line_str, Bool.and_eq_true, decide_eq_true_eq] at hv
  rw [prev_pos]
  split
  · rename_i h0
    rw [next_pos]
    have hcond : ({ line := p.line, column := p.column - 1 } : position).column <
        (line_str lines
          ({ line := p.line, column := p.column - 1 } : position).line).length := by
      simp only [line_str]
      omega
    rw [if_pos hcond]
    rw [pos_eq_iff]
    simp
    omega
  · rename_i h0
    have hc : p.column = 0 := by omega
    have hl : p.line ≠ 0 := by
      intro h0'
      exact h (by rw [pos_eq_iff]; exact ⟨h0', hc⟩)
    rw [next_pos]
    rw [if_neg (by simp)]
    rw [pos_eq_iff]
    simp
    omega

theorem prev_pos_valid (lines : lines_t) (p : position)
    (h : pos_is_valid lines p = true) :
    pos_is_valid lines (prev_pos lines p) = true := by
  simp only [pos_is_valid, line_str, Bool.and_eq_true, decide_eq_true_eq] at h ⊢
  rw [prev_pos]
  split
  · refine ⟨h.1, ?_⟩
    show p.column - 1 ≤ (List.getD lines p.line []).length
    omega
  · constructor
    · show p.line - 1 < lines.length
      omega
    · show (line_str lines (p.line - 1)).length ≤ (List.getD lines (p.line - 1) []).length
      rw [line_str]

theorem on_after_inserted_at_start (p q : position) (hline : p.line ≤ q.line) :
    on_after_inserted p p ⟨p, q⟩ true = (q, q) := by
  rw [on_after_inserted]
  have hlt : posLt p p = false := by simp [posLt]
  have hcond : (posLt p p || (decide (p = p) && true)) = true := by simp [hlt]
  rw [if_pos hcond]
  simp only [hlt, Bool.false_eq_true, if_false]
  simp [pos_eq_iff]
  omega

theorem on_after_erased_at_start (p q : position) (hle : posLe p q = true) :
    on_after_erased p p ⟨p, q⟩ = (p, p) := by
  rw [on_after_erased]
  have h1 : posGt p q = false := by simp [posGt, hle]
  have h2 : posLt p p = false := by simp [posLt]
  rw [if_neg (by simp [h1]), if_neg (by simp [h2])]
  simp

theorem on_after_erased_from_prev (p q : position) (hlt : posLt p q = true) :
    on_after_erased q q ⟨p, q⟩ = (p, p) := by
  rw [on_after_erased]
  have h1 : posGt q q = false := by simp [posGt, posLe_refl]
  rw [if_neg (by simp [h1]), if_pos hlt]

/-! ### Splitting of multi-line character runs -/

theorem split_newline_prefix (A rest : List Char) (h : ∀ c ∈ A, clean_char c) :
    split_chars_to_lines (A ++ '\n' :: rest) = A :: split_chars_to_lines rest := by
  rw [split_chars_to_lines, split_chars_aux_skip_clean A ('\n' :: rest) [] h,
    split_cons_break '\n' rest ([] ++ A) (by decide) (by decide),
    split_chars_to_lines]
  simp

theorem split_flatten (middle : List (List Char)) (C : List Char)
    (hm : ∀ l ∈ middle, ∀ c ∈ l, clean_char c) (hC : ∀ c ∈ C, clean_char c) :
    split_chars_to_lines ((middle.map (fun l => l ++ ['\n'])).flatten ++ C) =
      middle ++ [C] := by
  induction middle with
  | nil =>
    rw [List.map_nil, List.flatten_nil, List.nil_append, split_chars_to_lines,
      split_chars_aux_clean_single C [] hC]
    simp
  | cons M ms ih =>
    have hM : ∀ c ∈ M, clean_char c := hm M (List.mem_cons_self _ _)
    have hrest : ((M :: ms).map (fun l => l ++ ['\n'])).flatten ++ C =
        M ++ '\n' :: ((ms.map (fun l => l ++ ['\n'])).flatten ++ C) := by
      simp
    rw [hrest, split_newline_prefix M _ hM,
      ih (fun l hl => hm l (List.mem_cons_of_mem _ hl))]
    simp

/-! ### Shape facts about erased ranges -/

theorem characters_str_ne_nil (lines : lines_t) (r : range)
    (hv2 : pos_is_valid lines r.stop = true)
    (hlt : posLt r.start r.stop = true) :
    characters_str lines r ≠ [] := by
  simp only [pos_is_valid, line_str, Bool.and_eq_true, decide_eq_true_eq] at hv2
  rw [posLt_iff] at hlt
  rw [characters_str]
  by_cases hll : r.start.line = r.stop.line
  · rw [if_pos hll]
    have hab : r.start.column < r.stop.column := by
      rcases hlt with h | h
      · omega
      · exact h.2
    apply List.ne_nil_of_length_pos
    rw [List.length_drop, List.length_take]
    rw [line_str, hll]
    have := hv2.2
    omega
  · rw [if_neg hll]
    intro hcontra
    simp at hcontra

theorem posLt_next (lines : lines_t) (p : position) :
    posLt p (next_pos lines p) = true := by
  rw [next_pos]
  split
  · rw [posLt_iff]
    exact Or.inr ⟨rfl, Nat.lt_succ_self _⟩
  · rw [posLt_iff]
    exact Or.inl (Nat.lt_succ_self _)

theorem next_pos_valid (lines : lines_t) (p : position)
    (hv : pos_is_valid lines p = true) (hne : p ≠ end_pos lines) :
    pos_is_valid lines (next_pos lines p) = true := by
  simp only [pos_is_valid, Bool.and_eq_true, decide_eq_true_eq] at hv
  rw [next_pos]
  split
  · rename_i hc
    simp only [pos_is_valid, Bool.and_eq_true, decide_eq_true_eq]
    exact ⟨hv.1, by simp only [line_str] at hc ⊢; omega⟩
  · rename_i hc
    have hl2 : p.line + 1 < lines.length :=
      line_end_next_line lines p hv.1 hne hv.2 hc
    simp only [pos_is_valid, Bool.and_eq_true, decide_eq_true_eq]
    exact ⟨hl2, by simp⟩

theorem erase_start_valid (lines : lines_t) (r : range)
    (hv1 : pos_is_valid lines r.start = true)
    (hlt : posLt r.start r.stop = true) :
    pos_is_valid (buffer_erase lines r) r.start = true := by
  have hne : r.start ≠ r.stop := posLt_ne hlt
  simp only [pos_is_valid, line_str, Bool.and_eq_true, decide_eq_true_eq] at hv1
  rw [posLt_iff] at hlt
  rw [buffer_erase, if_neg hne]
  by_cases hll : r.start.line = r.stop.line
  · rw [if_pos hll]
    simp only [pos_is_valid, Bool.and_eq_true, decide_eq_true_eq]
    constructor
    · rw [List.length_set]
      exact hv1.1
    · rw [set_eq_decomp lines r.start.line _ [] hv1.1, line_str,
        getD_take_append_at lines r.start.line (Nat.le_of_lt hv1.1)]
      rw [List.length_append, List.length_take, List.length_drop]
      simp only [line_str]
      have := hv1.2
      omega
  · rw [if_neg hll]
    have hlab : r.start.line < r.stop.line := by
      rcases hlt with h | h
      · exact h
      · exact absurd h.1 hll
    simp only [pos_is_valid, Bool.and_eq_true, decide_eq_true_eq]
    constructor
    · rw [List.length_append, List.length_append, List.length_take]
      simp
      omega
    · rw [List.append_assoc, List.singleton_append, line_str,
        getD_take_append_at lines r.start.line (Nat.le_of_lt hv1.1)]
      rw [List.length_append, List.length_take]
      have := hv1.2
      rw [line_str] at *
      omega

/-- Inserting a single-line run into a buffer decomposed around the
insertion line. -/
theorem buffer_insert_single_shape (A : lines_t) (X : List Char) (B : lines_t)
    (p : position) (chars n0 : List Char)
    (hA : A.length = p.line) (hc : chars ≠ [])
    (hs : split_chars_to_lines chars = [n0]) :
    (buffer_insert (A ++ X :: B) p chars).1 =
      A ++ (X.take p.column ++ n0 ++ X.drop p.column) :: B := by
  rw [buffer_insert_single _ p chars n0 hc hs]
  have htake : (A ++ X :: B).take p.line = A := by
    rw [← hA, List.take_left]
  have hdrop : (A ++ X :: B).drop (p.line + 1) = B := by
    rw [← hA, List.drop_append]
    simp
  have hline : line_str (A ++ X :: B) p.line = X := by
    rw [line_str, ← hA]
    exact getD_append_at A X B []
  rw [htake, hdrop, hline]

/-- Inserting a multi-line run into a buffer decomposed around the
insertion line. -/
theorem buffer_insert_multi_shape (A : lines_t) (X : List Char) (B : lines_t)
    (p : position) (chars n0 : List Char) (ntail : List (List Char))
    (hA : A.length = p.line) (hc : chars ≠ []) (hnt : ntail ≠ [])
    (hs : split_chars_to_lines chars = n0 :: ntail) :
    (buffer_insert (A ++ X :: B) p chars).1 =
      A ++ ((X.take p.column ++ n0) ::
        (ntail.dropLast ++ [ntail.getLast hnt ++ X.drop p.column])) ++ B := by
  rw [buffer_insert_multi _ p chars n0 ntail hc hnt hs]
  have htake : (A ++ X :: B).take p.line = A := by
    rw [← hA, List.take_left]
  have hdrop : (A ++ X :: B).drop (p.line + 1) = B := by
    rw [← hA, List.drop_append]
    simp
  have hline : line_str (A ++ X :: B) p.line = X := by
    rw [line_str, ← hA]
    exact getD_append_at A X B []
  rw [htake, hdrop, hline]

/-- Re-inserting the erased characters of any non-empty valid range at the
range's start restores the buffer: the inverse direction used by undo of
an `erase_modification`. -/
theorem erase_insert_restore (lines : lines_t) (r : range)
    (hcl : clean_lines lines)
    (hv1 : pos_is_valid lines r.start = true)
    (hv2 : pos_is_valid lines r.stop = true)
    (hlt : posLt r.start r.stop = true) :
    (buffer_insert (buffer_erase lines r) r.start (characters_str lines r)).1
      = lines := by
  have hne : r.start ≠ r.stop := posLt_ne hlt
  have hcne : characters_str lines r ≠ [] := characters_str_ne_nil lines r hv2 hlt
  have hl1 : r.start.line < lines.length := by
    simp only [pos_is_valid, Bool.and_eq_true, decide_eq_true_eq] at hv1
    exact hv1.1
  have hc1 : r.start.column ≤ (line_str lines r.start.line).length := by
    simp only [pos_is_valid, Bool.and_eq_true, decide_eq_true_eq] at hv1
    exact hv1.2
  have hl2 : r.stop.line < lines.length := by
    simp only [pos_is_valid, Bool.and_eq_true, decide_eq_true_eq] at hv2
    exact hv2.1
  have hc2 : r.stop.column ≤ (line_str lines r.stop.line).length := by
    simp only [pos_is_valid, Bool.and_eq_true, decide_eq_true_eq] at hv2
    exact hv2.2
  have hlt2 := posLt_iff.mp hlt
  have hAlen : (lines.take r.start.line).length = r.start.line :=
    length_take_of_le (Nat.le_of_lt hl1)
  by_cases hll : r.start.line = r.stop.line
  · -- the erased span lies inside one line
    have hab : r.start.column < r.stop.column := by
      rcases hlt2 with h | h
      · omega
      · exact h.2
    have hb : r.stop.column ≤ (line_str lines r.start.line).length := by
      rw [hll]
      exact hc2
    have hchars : characters_str lines r =
        ((line_str lines r.start.line).take r.stop.column).drop r.start.column := by
      rw [characters_str, if_pos hll]
    have hclean_chars : ∀ c ∈ characters_str lines r, clean_char c := by
      rw [hchars]
      intro c hc
      exact clean_line_str lines hcl r.start.line c
        (List.take_subset _ _ (List.drop_subset _ _ hc))
    have hsplit : split_chars_to_lines (characters_str lines r) =
        [characters_str lines r] := by
      rw [split_chars_to_lines, split_chars_aux_clean_single _ [] hclean_chars]
      simp
    have herase : buffer_erase lines r =
        lines.take r.start.line ++
          ((line_str lines r.start.line).take r.start.column ++
            (line_str lines r.start.line).drop r.stop.column) ::
          lines.drop (r.start.line + 1) := by
      rw [buffer_erase, if_neg hne, if_pos hll]
      exact set_eq_decomp lines r.start.line _ [] hl1
    rw [herase, buffer_insert_single_shape _ _ _ r.start _ _ hAlen hcne hsplit]
    have htc : ((line_str lines r.start.line).take r.start.column).length
        = r.start.column := length_take_of_le hc1
    have htk : ((line_str lines r.start.line).take r.start.column ++
        (line_str lines r.start.line).drop r.stop.column).take r.start.column =
        (line_str lines r.start.line).take r.start.column := by
      rw [List.take_append_of_le_length (Nat.le_of_eq htc.symm), List.take_take]
      simp
    have hdp : ((line_str lines r.start.line).take r.start.column ++
        (line_str lines r.start.line).drop r.stop.column).drop r.start.column =
        (line_str lines r.start.line).drop r.stop.column :=
      drop_take_append _ r.start.column hc1 _
    rw [htk, hdp, hchars]
    have h5 : (line_str lines r.start.line).take r.start.column ++
        ((line_str lines r.start.line).take r.stop.column).drop r.start.column =
        (line_str lines r.start.line).take r.stop.column := by
      have h6 : ((line_str lines r.start.line).take r.stop.column).take
          r.start.column = (line_str lines r.start.line).take r.start.column := by
        rw [List.take_take]
        congr 1
        omega
      conv_rhs => rw [← List.take_append_drop r.start.column
        ((line_str lines r.start.line).take r.stop.column)]
      rw [h6]
    rw [h5, List.take_append_drop]
    rw [line_str]
    exact (list_decomp lines r.start.line [] hl1).symm
  · -- the erased span crosses at least one line break
    have hlab : r.start.line < r.stop.line := by
      rcases hlt2 with h | h
      · exact h
      · exact absurd h.1 hll
    have hA0 : ∀ c ∈ (line_str lines r.start.line).drop r.start.column,
        clean_char c := fun c hc =>
      clean_line_str lines hcl r.start.line c (List.drop_subset _ _ hc)
    have hC : ∀ c ∈ (line_str lines r.stop.line).take r.stop.column,
        clean_char c := fun c hc =>
      clean_line_str lines hcl r.stop.line c (List.take_subset _ _ hc)
    have hm : ∀ l ∈ (lines.drop (r.start.line + 1)).take
        (r.stop.line - (r.start.line + 1)), ∀ c ∈ l, clean_char c :=
      fun l hl => hcl l (List.drop_subset _ _ (List.take_subset _ _ hl))
    have hchars : characters_str lines r =
        (line_str lines r.start.line).drop r.start.column ++ '\n' ::
          ((((lines.drop (r.start.line + 1)).take
              (r.stop.line - (r.start.line + 1))).map
            (fun l => l ++ ['\n'])).flatten ++
           (line_str lines r.stop.line).take r.stop.column) := by
      rw [characters_str, if_neg hll]
      simp
    have hsplit : split_chars_to_lines (characters_str lines r) =
        (line_str lines r.start.line).drop r.start.column ::
          ((lines.drop (r.start.line + 1)).take
            (r.stop.line - (r.start.line + 1)) ++
           [(line_str lines r.stop.line).take r.stop.column]) := by
      rw [hchars, split_newline_prefix _ _ hA0, split_flatten _ _ hm hC]
    have herase : buffer_erase lines r =
        lines.take r.start.line ++
          ((line_str lines r.start.line).take r.start.column ++
            (line_str lines r.stop.line).drop r.stop.column) ::
          lines.drop (r.stop.line + 1) := by
      rw [buffer_erase, if_neg hne, if_neg hll]
      rw [List.append_assoc, List.singleton_append]
    rw [herase, buffer_insert_multi_shape _ _ _ r.start _ _ _ hAlen hcne
      (by simp) hsplit]
    have htc : ((line_str lines r.start.line).take r.start.column).length
        = r.start.column := length_take_of_le hc1
    have htk : ((line_str lines r.start.line).take r.start.column ++
        (line_str lines r.stop.line).drop r.stop.column).take r.start.column =
        (line_str lines r.start.line).take r.start.column := by
      rw [List.take_append_of_le_length (Nat.le_of_eq htc.symm), List.take_take]
      simp
    have hdp : ((line_str lines r.start.line).take r.start.column ++
        (line_str lines r.stop.line).drop r.stop.column).drop r.start.column =
        (line_str lines r.stop.line).drop r.stop.column :=
      drop_take_append _ r.start.column hc1 _
    rw [htk, hdp]
    rw [List.dropLast_concat]
    have hgl : ((lines.drop (r.start.line + 1)).take
        (r.stop.line - (r.start.line + 1)) ++
        [(line_str lines r.stop.line).take r.stop.column]).getLast (by simp) =
        (line_str lines r.stop.line).take r.stop.column := by
      rw [List.getLast_append]
      simp
    rw [hgl, List.take_append_drop, List.take_append_drop]
    have hmid_drop : lines.drop (r.start.line + 1) =
        (lines.drop (r.start.line + 1)).take
          (r.stop.line - (r.start.line + 1)) ++ lines.drop r.stop.line := by
      conv_lhs => rw [← List.take_append_drop (r.stop.line - (r.start.line + 1))
        (lines.drop (r.start.line + 1))]
      congr 1
      rw [List.drop_drop]
      congr 1
      omega
    have hlb_cons : lines.drop r.stop.line =
        line_str lines r.stop.line :: lines.drop (r.stop.line + 1) := by
      rw [List.drop_eq_getElem_cons hl2, line_str,
        List.getD_eq_getElem lines [] hl2]
    calc lines.take r.start.line ++
        (line_str lines r.start.line ::
          ((lines.drop (r.start.line + 1)).take
            (r.stop.line - (r.start.line + 1)) ++
           [line_str lines r.stop.line])) ++
        lines.drop (r.stop.line + 1)
        = lines.take r.start.line ++ line_str lines r.start.line ::
            ((lines.drop (r.start.line + 1)).take
              (r.stop.line - (r.start.line + 1)) ++
             (line_str lines r.stop.line :: lines.drop (r.stop.line + 1))) := by
          simp
      _ = lines.take r.start.line ++ line_str lines r.start.line ::
            lines.drop (r.start.line + 1) := by
          rw [← hlb_cons, ← hmid_drop]
      _ = lines := by
          rw [line_str]
          exact (list_decomp lines r.start.line [] hl1).symm

/-! ### The C1 invariant: a well-formed state and an invertible undo stack -/

/-- The well-formedness the round-trip argument maintains: no embedded
line breaks, a valid cursor, an empty selection (anchor at the cursor),
overwrite mode off, history recording on, and the cursor moving with
insertions (the controller's defaults). -/
def wf_state (s : editor_state) : Prop :=
  clean_lines s.lines ∧ pos_is_valid s.lines s.pos = true ∧
  s.anchor_pos = s.pos ∧ s.is_overwrite_mode = false ∧
  s.enable_history = true ∧ s.move_pos_after_insert = true

/-- `m` undoes the step from `before` to `after`: replaying `m`'s undo on
a buffer holding `after` yields `before`. -/
def inverts (m : modification) (before after : lines_t) : Prop :=
  match m with
  | .insert r _chars =>
    buffer_erase after r = before ∧ posLe r.start r.stop = true ∧ r.start ≠ r.stop
  | .erase r chars =>
    (buffer_insert after r.start chars).1 = before ∧ chars ≠ []
  | .replace _ _ _ => False
  | .group _ => False

/-- The reversed undo stack righteously chains the current buffer back to
the original one. -/
def inverts_chain : List modification → lines_t → lines_t → Prop
  | [], orig, cur => cur = orig
  | m :: rest, orig, cur => ∃ mid, inverts m mid cur ∧ inverts_chain rest orig mid

/-- The undo-stack invariant: the dirty counter equals the stack depth and
the stack, newest first, chains the buffer back to `orig`. -/
def history_inv (orig : lines_t) (s : editor_state) : Prop :=
  s.history.undo_redo_count = (s.history.undo_mods.length : Int) ∧
  s.history.redo_mods = [] ∧
  inverts_chain s.history.undo_mods.reverse orig s.lines

/-- The editing actions of the round-trip claim. -/
inductive edit_action where
  | char (c : Char)
  | enter
  | del
  | backspace
  | cut
  | paste (text : List Char)

/-- Dispatch of an editing action on the controller. -/
def apply_action (s : editor_state) : edit_action → editor_state
  | .char c => s.do_char c
  | .enter => s.do_enter
  | .del => s.do_delete
  | .backspace => s.do_backspace
  | .cut => (s.cut).1
  | .paste t => s.paste t

/-- The actions the amended round-trip covers: any character except `}`
(whose dedent path is the separate C6 story) and a bare CR, and any pasted
text that is empty or contains at least one non-CR character (a run of
bare CRs inserts nothing but records a degenerate entry whose undo is not
a no-op). -/
def good_action : edit_action → Prop
  | .char c => c ≠ closeBrace ∧ c ≠ '\r'
  | .paste t => t = [] ∨ ∃ c ∈ t, c ≠ '\r'
  | _ => True

/-- `add` below the eviction limit: plain push and increment. -/
theorem add_small (h : modification_history) (m : modification)
    (hlen : h.undo_mods.length < 1000)
    (hcount : h.undo_redo_count = (h.undo_mods.length : Int)) :
    (h.add m).undo_mods = h.undo_mods ++ [m] ∧
    (h.add m).redo_mods = [] ∧
    (h.add m).undo_redo_count = (h.undo_mods.length : Int) + 1 := by
  refine ⟨?_, by simp [modification_history.add], ?_⟩
  · rw [add_undo_mods, if_neg (by omega)]
  · simp only [modification_history.add, hcount]
    rw [if_neg (by rw [intMax]; omega), if_neg (by omega)]

/-! ### Replaying the undo stack -/

/-- The insert-undo branch with history recording off: select the recorded
range and delete it; the history object is untouched. -/
theorem undo_insert_branch (s : editor_state) (r : range)
    (hle : posLe r.start r.stop = true) (hne : r.start ≠ r.stop)
    (he : s.enable_history = false) :
    (((s.set_pos_move_anchor r.start).set_pos_keep_anchor r.stop).delete_op).lines
        = buffer_erase s.lines r ∧
    (((s.set_pos_move_anchor r.start).set_pos_keep_anchor r.stop).delete_op).history
        = s.history ∧
    (((s.set_pos_move_anchor r.start).set_pos_keep_anchor r.stop).delete_op).enable_history
        = false := by
  simp only [editor_state.delete_op, editor_state.do_delete,
    editor_state.set_pos_move_anchor, editor_state.set_pos_keep_anchor,
    editor_state.selected_range, selected_range_of, editor_state.delete_chars,
    editor_state.model_erase, hle, if_true, hne, if_false, he]
  simp [hne]

/-- The erase-undo branch with history recording off: jump to the recorded
start and paste the saved characters; the history object is untouched. -/
theorem undo_erase_branch (s : editor_state) (p : position) (chars : List Char)
    (hcne : chars ≠ []) (he : s.enable_history = false) :
    (((s.set_pos_move_anchor p).paste chars)).lines
        = (buffer_insert s.lines p chars).1 ∧
    (((s.set_pos_move_anchor p).paste chars)).history = s.history ∧
    (((s.set_pos_move_anchor p).paste chars)).enable_history = false := by
  simp only [editor_state.paste, editor_state.insert_chars,
    editor_state.set_pos_move_anchor, editor_state.selected_range,
    selected_range_of, posLe_refl, if_true, editor_state.delete_chars,
    editor_state.insert_chars_at, hcne, if_false, editor_state.model_insert, he]
  simp [hcne]

/-- Replaying the undo of a recorded modification that inverts the current
buffer back to `before` yields `before`, and leaves the history object as
it was (recording is re-enabled afterwards). -/
theorem perform_undo_effect (s : editor_state) (m : modification)
    (before : lines_t) (h : inverts m before s.lines) :
    (perform_undo s m).lines = before ∧ (perform_undo s m).history = s.history := by
  cases m with
  | insert r chars =>
    obtain ⟨herase, hle, hne⟩ := h
    have hb := undo_insert_branch { s with enable_history := false } r hle hne rfl
    rw [perform_undo]
    exact ⟨hb.1.trans herase, hb.2.1⟩
  | erase r chars =>
    obtain ⟨hins, hcne⟩ := h
    have hb := undo_erase_branch { s with enable_history := false } r.start chars
      hcne rfl
    rw [perform_undo]
    exact ⟨hb.1.trans hins, hb.2.1⟩
  | replace r o n => exact h.elim
  | group g => exact h.elim

/-- One `undo()` on a state whose topmost recorded modification inverts
the buffer to `mid`: the buffer becomes `mid`, the stack loses its top,
and the counter follows the depth down. -/
theorem undo_step (s : editor_state) (m : modification) (ms : List modification)
    (mid : lines_t)
    (hms : s.history.undo_mods = ms ++ [m])
    (hinv : inverts m mid s.lines)
    (hcount : s.history.undo_redo_count = (s.history.undo_mods.length : Int))
    (hb : s.history.undo_mods.length ≤ 1000) :
    s.undo.lines = mid ∧ s.undo.history.undo_mods = ms ∧
    s.undo.history.undo_redo_count = (ms.length : Int) := by
  have hlast : s.history.undo_mods.getLast? = some m := by
    rw [hms]
    exact List.getLast?_concat _
  have heff := perform_undo_effect s m mid hinv
  have hlen : s.history.undo_mods.length = ms.length + 1 := by
    rw [hms]
    simp
  rw [editor_state.undo, hlast]
  refine ⟨heff.1, ?_, ?_⟩
  · show ((perform_undo s m).history.undo).undo_mods = ms
    rw [heff.2, modification_history.undo, hlast]
    show s.history.undo_mods.dropLast = ms
    rw [hms]
    exact List.dropLast_concat
  · show ((perform_undo s m).history.undo).undo_redo_count = (ms.length : Int)
    rw [heff.2, modification_history.undo, hlast]
    show (if s.history.undo_redo_count = intMax then s.history.undo_redo_count
      else s.history.undo_redo_count - 1) = (ms.length : Int)
    rw [if_neg (by rw [hcount, hlen, intMax]; push_cast; omega), hcount, hlen]
    push_cast
    omega

/-- Undoing once per entry of an invertible undo stack of depth at most
1000 walks the buffer all the way back to `orig` and brings the dirty
counter to zero. -/
theorem undo_all (orig : lines_t) :
    ∀ rms : List modification, ∀ s : editor_state,
      s.history.undo_mods.reverse = rms →
      s.history.undo_redo_count = (s.history.undo_mods.length : Int) →
      s.history.undo_mods.length ≤ 1000 →
      inverts_chain rms orig s.lines →
      (editor_state.undo_times rms.length s).lines = orig ∧
      (editor_state.undo_times rms.length s).history.undo_redo_count = 0 := by
  intro rms
  induction rms with
  | nil =>
    intro s hrev hcount hb hchain
    have hnil : s.history.undo_mods = [] := by
      rw [← List.reverse_reverse s.history.undo_mods, hrev, List.reverse_nil]
    refine ⟨hchain, ?_⟩
    show s.history.undo_redo_count = 0
    rw [hcount, hnil]
    simp
  | cons m rest ih =>
    intro s hrev hcount hb hchain
    obtain ⟨mid, hinv, hrest⟩ := hchain
    have hms : s.history.undo_mods = rest.reverse ++ [m] := by
      rw [← List.reverse_reverse s.history.undo_mods, hrev]
      simp
    have hstep := undo_step s m rest.reverse mid hms hinv hcount hb
    have hlen : s.history.undo_mods.length = rest.length + 1 := by
      rw [hms]
      simp
    show (editor_state.undo_times rest.length s.undo).lines = orig ∧
      (editor_state.undo_times rest.length s.undo).history.undo_redo_count = 0
    apply ih s.undo
    · rw [hstep.2.1]
      exact List.reverse_reverse rest
    · rw [hstep.2.1, hstep.2.2]
    · rw [hstep.2.1]
      simp
      omega
    · rw [hstep.1]
      exact hrest

/-! ### Position-order utilities and the selection collapse -/

theorem posLe_of_lt {a b : position} (h : posLt a b = true) : posLe a b = true := by
  rw [posLt_iff] at h
  rw [posLe_iff]
  omega

theorem posLe_trans {a b c : position} (h1 : posLe a b = true)
    (h2 : posLe b c = true) : posLe a c = true := by
  rw [posLe_iff] at h1 h2 ⊢
  omega

theorem posLt_of_le_of_ne {a b : position} (h1 : posLe a b = true)
    (h2 : a ≠ b) : posLt a b = true := by
  rw [posLe_iff] at h1
  rw [posLt_iff]
  have h3 : ¬(a.line = b.line ∧ a.column = b.column) := by
    intro hc
    exact h2 (pos_eq_iff.mpr hc)
  rcases Nat.lt_trichotomy a.line b.line with h | h | h
  · exact Or.inl h
  · refine Or.inr ⟨h, ?_⟩
    omega
  · omega

/-- The selection collapse after an erase when the cursor lies in the
erased span `[start, stop]` and the anchor is not before the start: both
collapse to the start of the span. -/
theorem on_after_erased_span (p a : position) (r : range)
    (hp1 : posLe r.start p = true) (hp2 : posLe p r.stop = true)
    (ha : posLe r.start a = true) :
    on_after_erased p a r = (r.start, r.start) := by
  rw [on_after_erased]
  have h1 : posGt p r.stop = false := by
    simp [posGt, hp2]
  rw [if_neg (by simp [h1])]
  by_cases h2 : posLt r.start p = true
  · rw [if_pos h2]
  · rw [if_neg h2]
    have hps : r.start = p := by
      rw [posLe_iff] at hp1
      rw [posLt_iff] at h2
      rw [pos_eq_iff]
      omega
    by_cases h3 : posGt a r.start = true
    · rw [if_pos h3, hps]
    · rw [if_neg h3]
      have h4 : posLe a r.start = true := by
        rw [posGt] at h3
        simp at h3
        exact h3
      have has : a = r.start := by
        rw [posLe_iff] at ha h4
        rw [pos_eq_iff]
        omega
      rw [has, hps]

/-- The cursor-and-anchor move after inserting at the caret (empty
selection at the range start): both land at the end of the insertion. -/
theorem on_after_inserted_caret (p : position) (r : range)
    (hs : r.start = p) (hl : p.line ≤ r.stop.line) :
    on_after_inserted p p r true = (r.stop, r.stop) := by
  cases r with
  | mk a b =>
    cases hs
    exact on_after_inserted_at_start a b hl

/-- Under an empty selection the controller's `selected_range()` is the
degenerate range at the cursor. -/
theorem selected_range_empty (s : editor_state) (h : s.anchor_pos = s.pos) :
    s.selected_range = ⟨s.pos, s.pos⟩ := by
  rw [editor_state.selected_range, h, selected_range_of, if_pos (posLe_refl _)]

theorem delete_chars_noop (s : editor_state) (r : range) (h : r.start = r.stop) :
    s.delete_chars r = s := by
  rw [editor_state.delete_chars, if_pos h]

/-- One editing step preserves well-formedness and the undo-stack
invariant, and grows the stack by at most two entries. -/
def step_inv (orig : lines_t) (s s' : editor_state) : Prop :=
  wf_state s' ∧ history_inv orig s' ∧
  s'.history.undo_mods.length ≤ s.history.undo_mods.length + 2

/-- The state `delete_chars` produces on a non-degenerate range with the
cursor inside the span: collapsed cursor, erased buffer, recorded
erase. -/
def erased_state (s : editor_state) (r : range) : editor_state :=
  { s with
    lines := buffer_erase s.lines r,
    pos := r.start,
    anchor_pos := r.start,
    history := s.history.add (.erase r (characters_str s.lines r)) }

/-- `delete_chars` on a valid range around the cursor: the erase is
recorded invertibly and the cursor collapses to the range start. -/
theorem delete_chars_inv (s : editor_state) (r : range) (orig : lines_t)
    (hwf : wf_state s) (hinv : history_inv orig s)
    (hb : s.history.undo_mods.length < 1000)
    (hv1 : pos_is_valid s.lines r.start = true)
    (hv2 : pos_is_valid s.lines r.stop = true)
    (hp1 : posLe r.start s.pos = true) (hp2 : posLe s.pos r.stop = true) :
    wf_state (s.delete_chars r) ∧ history_inv orig (s.delete_chars r) ∧
    (s.delete_chars r).history.undo_mods.length ≤
      s.history.undo_mods.length + 1 := by
  obtain ⟨hcl, hpv, han, hov, hen, hmv⟩ := hwf
  by_cases hse : r.start = r.stop
  · rw [delete_chars_noop s r hse]
    exact ⟨⟨hcl, hpv, han, hov, hen, hmv⟩, hinv, by omega⟩
  · have hlt : posLt r.start r.stop = true :=
      posLt_of_le_of_ne (posLe_trans hp1 hp2) hse
    have hsel : on_after_erased s.pos s.anchor_pos r = (r.start, r.start) :=
      on_after_erased_span s.pos s.anchor_pos r hp1 hp2 (by rw [han]; exact hp1)
    have heq : s.delete_chars r = erased_state s r := by
      rw [editor_state.delete_chars, if_neg hse, editor_state.model_erase,
        if_neg hse, hsel, erased_state]
      simp [hen]
    have hadd := add_small s.history (.erase r (characters_str s.lines r)) hb hinv.1
    rw [heq]
    refine ⟨⟨clean_buffer_erase s.lines r hcl, erase_start_valid s.lines r hv1 hlt,
      rfl, hov, hen, hmv⟩, ⟨?_, hadd.2.1, ?_⟩, ?_⟩
    · show (s.history.add (.erase r (characters_str s.lines r))).undo_redo_count =
        ((s.history.add (.erase r (characters_str s.lines r))).undo_mods.length : Int)
      rw [hadd.2.2, hadd.1]
      simp
    · show inverts_chain
        (s.history.add (.erase r (characters_str s.lines r))).undo_mods.reverse
        orig (buffer_erase s.lines r)
      rw [hadd.1, List.reverse_append, List.reverse_singleton, List.singleton_append]
      exact ⟨s.lines,
        ⟨erase_insert_restore s.lines r hcl hv1 hv2 hlt,
          characters_str_ne_nil s.lines r hv2 hlt⟩,
        hinv.2.2⟩
    · show (s.history.add (.erase r (characters_str s.lines r))).undo_mods.length ≤
        s.history.undo_mods.length + 1
      rw [hadd.1]
      simp

theorem posLe_line_le {a b : position} (h : posLe a b = true) : a.line ≤ b.line := by
  rw [posLe_iff] at h
  omega

/-- The state `insert_chars_at` produces at the caret on a non-empty
character run: spliced buffer, cursor and anchor at the end of the
insertion, recorded insert. -/
def inserted_state (s : editor_state) (chars : List Char) : editor_state :=
  { s with
    lines := (buffer_insert s.lines s.pos chars).1,
    pos := (buffer_insert s.lines s.pos chars).2.stop,
    anchor_pos := (buffer_insert s.lines s.pos chars).2.stop,
    history := s.history.add (.insert (buffer_insert s.lines s.pos chars).2 chars) }

/-- `insert_chars_at` at the caret: the insert is recorded invertibly and
the cursor moves to the end of the inserted range. -/
theorem insert_chars_at_inv (s : editor_state) (chars : List Char) (orig : lines_t)
    (hwf : wf_state s) (hinv : history_inv orig s)
    (hb : s.history.undo_mods.length < 1000)
    (hgood : chars = [] ∨ ∃ c ∈ chars, c ≠ '\r') :
    wf_state (s.insert_chars_at s.pos chars) ∧
    history_inv orig (s.insert_chars_at s.pos chars) ∧
    (s.insert_chars_at s.pos chars).history.undo_mods.length ≤
      s.history.undo_mods.length + 1 := by
  obtain ⟨hcl, hpv, han, hov, hen, hmv⟩ := hwf
  rcases hgood with hnil | hw
  · rw [hnil, editor_state.insert_chars_at, if_pos rfl]
    exact ⟨⟨hcl, hpv, han, hov, hen, hmv⟩, hinv, by omega⟩
  · have hcne : chars ≠ [] := by
      rcases hw with ⟨c, hc, -⟩
      intro he
      rw [he] at hc
      exact absurd hc (List.not_mem_nil c)
    have h1 : s.pos.line < s.lines.length := by
      simp only [pos_is_valid, Bool.and_eq_true, decide_eq_true_eq] at hpv
      exact hpv.1
    have h2 : s.pos.column ≤ (line_str s.lines s.pos.line).length := by
      simp only [pos_is_valid, Bool.and_eq_true, decide_eq_true_eq] at hpv
      exact hpv.2
    have hrs : (buffer_insert s.lines s.pos chars).2.start = s.pos :=
      buffer_insert_range_start s.lines s.pos chars
    have hrle : posLe s.pos (buffer_insert s.lines s.pos chars).2.stop = true :=
      buffer_insert_range_le s.lines s.pos chars
    have hrne : (buffer_insert s.lines s.pos chars).2.start ≠
        (buffer_insert s.lines s.pos chars).2.stop :=
      buffer_insert_range_nonempty s.lines s.pos chars hw
    have hsel : on_after_inserted s.pos s.anchor_pos
        (buffer_insert s.lines s.pos chars).2 s.move_pos_after_insert =
        ((buffer_insert s.lines s.pos chars).2.stop,
         (buffer_insert s.lines s.pos chars).2.stop) := by
      rw [han, hmv]
      exact on_after_inserted_caret s.pos _ hrs (posLe_line_le hrle)
    have heq : s.insert_chars_at s.pos chars = inserted_state s chars := by
      rw [editor_state.insert_chars_at, if_neg hcne, editor_state.model_insert,
        if_neg hcne]
      simp only [hsel, hen, if_true, inserted_state]
    have hadd := add_small s.history
      (.insert (buffer_insert s.lines s.pos chars).2 chars) hb hinv.1
    rw [heq]
    refine ⟨⟨clean_buffer_insert s.lines s.pos chars hcl,
      buffer_insert_end_valid s.lines s.pos chars h1 h2 hcne,
      rfl, hov, hen, hmv⟩, ⟨?_, hadd.2.1, ?_⟩, ?_⟩
    · show (s.history.add
          (.insert (buffer_insert s.lines s.pos chars).2 chars)).undo_redo_count =
        ((s.history.add
          (.insert (buffer_insert s.lines s.pos chars).2 chars)).undo_mods.length : Int)
      rw [hadd.2.2, hadd.1]
      simp
    · show inverts_chain
        (s.history.add
          (.insert (buffer_insert s.lines s.pos chars).2 chars)).undo_mods.reverse
        orig (buffer_insert s.lines s.pos chars).1
      rw [hadd.1, List.reverse_append, List.reverse_singleton, List.singleton_append]
      refine ⟨s.lines, ⟨buffer_erase_insert s.lines s.pos chars h1 h2, ?_, hrne⟩,
        hinv.2.2⟩
      rw [hrs]
      exact hrle
    · show (s.history.add
          (.insert (buffer_insert s.lines s.pos chars).2 chars)).undo_mods.length ≤
        s.history.undo_mods.length + 1
      rw [hadd.1]
      simp

/-- Under an empty selection `insert_chars` is `insert_chars_at` at the
caret. -/
theorem insert_chars_empty_sel (s : editor_state) (chars : List Char)
    (han : s.anchor_pos = s.pos) :
    s.insert_chars chars = s.insert_chars_at s.pos chars := by
  rw [editor_state.insert_chars, selected_range_empty s han, delete_chars_noop]
  rfl

/-! ### One editing action preserves the invariant -/

theorem do_delete_inv (s : editor_state) (orig : lines_t)
    (hwf : wf_state s) (hinv : history_inv orig s)
    (hb : s.history.undo_mods.length < 1000) :
    step_inv orig s s.do_delete := by
  have han := hwf.2.2.1
  have hpv := hwf.2.1
  have hsel := selected_range_empty s han
  by_cases hend : s.pos = end_pos s.lines
  · have heq : s.do_delete = s := by
      simp [editor_state.do_delete, hsel, editor_state.get_pos_forward, hend]
    rw [heq]
    exact ⟨hwf, hinv, by omega⟩
  · have heq : s.do_delete = s.delete_chars ⟨s.pos, next_pos s.lines s.pos⟩ := by
      simp [editor_state.do_delete, hsel, editor_state.get_pos_forward, hend,
        next_pos_ne s.lines s.pos]
    rw [heq]
    have hres := delete_chars_inv s ⟨s.pos, next_pos s.lines s.pos⟩ orig hwf hinv hb
      hpv (next_pos_valid s.lines s.pos hpv hend) (posLe_refl _)
      (posLe_next s.lines s.pos)
    exact ⟨hres.1, hres.2.1, by have := hres.2.2; omega⟩

theorem do_backspace_inv (s : editor_state) (orig : lines_t)
    (hwf : wf_state s) (hinv : history_inv orig s)
    (hb : s.history.undo_mods.length < 1000) :
    step_inv orig s s.do_backspace := by
  have han := hwf.2.2.1
  have hpv := hwf.2.1
  have hsel := selected_range_empty s han
  by_cases h0 : s.pos = (⟨0, 0⟩ : position)
  · have heq : s.do_backspace = s := by
      simp [editor_state.do_backspace, hsel, editor_state.get_pos_backward, h0]
    rw [heq]
    exact ⟨hwf, hinv, by omega⟩
  · have hlt := posLt_prev s.lines s.pos h0
    have heq : s.do_backspace = s.delete_chars ⟨prev_pos s.lines s.pos, s.pos⟩ := by
      simp [editor_state.do_backspace, hsel, editor_state.get_pos_backward, h0,
        posLt_ne hlt]
    rw [heq]
    have hres := delete_chars_inv s ⟨prev_pos s.lines s.pos, s.pos⟩ orig hwf hinv hb
      (prev_pos_valid s.lines s.pos hpv) hpv (posLe_of_lt hlt) (posLe_refl _)
    exact ⟨hres.1, hres.2.1, by have := hres.2.2; omega⟩

theorem insert_chars_inv (s : editor_state) (chars : List Char) (orig : lines_t)
    (hwf : wf_state s) (hinv : history_inv orig s)
    (hb : s.history.undo_mods.length < 1000)
    (hgood : chars = [] ∨ ∃ c ∈ chars, c ≠ '\r') :
    wf_state (s.insert_chars chars) ∧ history_inv orig (s.insert_chars chars) ∧
    (s.insert_chars chars).history.undo_mods.length ≤
      s.history.undo_mods.length + 1 := by
  rw [insert_chars_empty_sel s chars hwf.2.2.1]
  exact insert_chars_at_inv s chars orig hwf hinv hb hgood

theorem do_char_inv (s : editor_state) (c : Char) (orig : lines_t)
    (hwf : wf_state s) (hinv : history_inv orig s)
    (hb : s.history.undo_mods.length < 1000)
    (hc1 : c ≠ closeBrace) (hc2 : c ≠ '\r') :
    step_inv orig s (s.do_char c) := by
  have hov := hwf.2.2.2.1
  have heq : s.do_char c = s.insert_chars [c] := by
    simp [editor_state.do_char, hov, hc1]
  rw [heq]
  have hres := insert_chars_inv s [c] orig hwf hinv hb
    (Or.inr ⟨c, List.mem_singleton.mpr rfl, hc2⟩)
  exact ⟨hres.1, hres.2.1, by have := hres.2.2; omega⟩

theorem remove_spaces_inv (s : editor_state) (orig : lines_t)
    (hwf : wf_state s) (hinv : history_inv orig s)
    (hb : s.history.undo_mods.length < 1000) :
    wf_state s.remove_all_spaces_current_line ∧
    history_inv orig s.remove_all_spaces_current_line ∧
    s.remove_all_spaces_current_line.history.undo_mods.length ≤
      s.history.undo_mods.length + 1 := by
  have hpv := hwf.2.1
  have h1 : s.pos.line < s.lines.length := by
    simp only [pos_is_valid, Bool.and_eq_true, decide_eq_true_eq] at hpv
    exact hpv.1
  have h2 : s.pos.column ≤ (line_str s.lines s.pos.line).length := by
    simp only [pos_is_valid, Bool.and_eq_true, decide_eq_true_eq] at hpv
    exact hpv.2
  by_cases hnil : line_str s.lines s.pos.line = []
  · have heq : s.remove_all_spaces_current_line = s := by
      simp [editor_state.remove_all_spaces_current_line, hnil]
    rw [heq]
    exact ⟨hwf, hinv, by omega⟩
  · by_cases hall : (line_str s.lines s.pos.line).all
        (fun c => c = ' ' || c = '\t') = true
    · have heq : s.remove_all_spaces_current_line =
          s.delete_chars ⟨⟨s.pos.line, 0⟩,
            ⟨s.pos.line, (line_str s.lines s.pos.line).length⟩⟩ := by
        simp [editor_state.remove_all_spaces_current_line, hnil, hall]
      rw [heq]
      have hv1 : pos_is_valid s.lines ⟨s.pos.line, 0⟩ = true := by
        simp only [pos_is_valid, Bool.and_eq_true, decide_eq_true_eq]
        exact ⟨h1, by simp⟩
      have hv2 : pos_is_valid s.lines
          ⟨s.pos.line, (line_str s.lines s.pos.line).length⟩ = true := by
        simp only [pos_is_valid, Bool.and_eq_true, decide_eq_true_eq]
        exact ⟨h1, Nat.le_refl _⟩
      have hp1 : posLe (⟨s.pos.line, 0⟩ : position) s.pos = true := by
        rw [posLe_iff]
        exact Or.inr ⟨rfl, Nat.zero_le _⟩
      have hp2 : posLe s.pos
          (⟨s.pos.line, (line_str s.lines s.pos.line).length⟩ : position) = true := by
        rw [posLe_iff]
        exact Or.inr ⟨rfl, h2⟩
      exact delete_chars_inv s _ orig hwf hinv hb hv1 hv2 hp1 hp2
    · have heq : s.remove_all_spaces_current_line = s := by
        simp [editor_state.remove_all_spaces_current_line, hnil, hall]
      rw [heq]
      exact ⟨hwf, hinv, by omega⟩

theorem do_enter_inv (s : editor_state) (orig : lines_t)
    (hwf : wf_state s) (hinv : history_inv orig s)
    (hb : s.history.undo_mods.length ≤ 998) :
    step_inv orig s s.do_enter := by
  have h1 := remove_spaces_inv s orig hwf hinv (by omega)
  have hkey : ∀ rest : List Char, step_inv orig s
      ((s.remove_all_spaces_current_line).insert_chars ('\n' :: rest)) := by
    intro rest
    have h2 := insert_chars_inv s.remove_all_spaces_current_line ('\n' :: rest)
      orig h1.1 h1.2.1 (by have := h1.2.2; omega)
      (Or.inr ⟨'\n', List.mem_cons_self _ _, by decide⟩)
    exact ⟨h2.1, h2.2.1, by have h3 := h1.2.2; have h4 := h2.2.2; omega⟩
  exact hkey _

theorem apply_action_inv (s : editor_state) (a : edit_action) (orig : lines_t)
    (hwf : wf_state s) (hinv : history_inv orig s)
    (hb : s.history.undo_mods.length ≤ 998) (hg : good_action a) :
    step_inv orig s (apply_action s a) := by
  cases a with
  | char c => exact do_char_inv s c orig hwf hinv (by omega) hg.1 hg.2
  | enter => exact do_enter_inv s orig hwf hinv hb
  | del => exact do_delete_inv s orig hwf hinv (by omega)
  | backspace => exact do_backspace_inv s orig hwf hinv (by omega)
  | cut => exact do_delete_inv s orig hwf hinv (by omega)
  | paste t =>
    have hres := insert_chars_inv s t orig hwf hinv (by omega) hg
    refine ⟨hres.1, hres.2.1, ?_⟩
    show (s.insert_chars t).history.undo_mods.length ≤ _
    have := hres.2.2
    omega

theorem fold_actions_inv (orig : lines_t) :
    ∀ (acts : List edit_action) (s : editor_state),
      wf_state s → history_inv orig s →
      (∀ a ∈ acts, good_action a) →
      s.history.undo_mods.length + 2 * acts.length ≤ 1000 →
      wf_state (acts.foldl apply_action s) ∧
      history_inv orig (acts.foldl apply_action s) ∧
      (acts.foldl apply_action s).history.undo_mods.length ≤
        s.history.undo_mods.length + 2 * acts.length := by
  intro acts
  induction acts with
  | nil =>
    intro s hwf hinv _ _
    exact ⟨hwf, hinv, by simp⟩
  | cons a rest ih =>
    intro s hwf hinv hg hbud
    have hstep := apply_action_inv s a orig hwf hinv (by simp at hbud; omega)
      (hg a (List.mem_cons_self _ _))
    have hrec := ih (apply_action s a) hstep.1 hstep.2.1
      (fun x hx => hg x (List.mem_cons_of_mem _ hx))
      (by have := hstep.2.2; simp at hbud ⊢; omega)
    refine ⟨hrec.1, hrec.2.1, ?_⟩
    have h3 := hrec.2.2
    have h4 := hstep.2.2
    simp at h3 ⊢
    omega

/-! ### `do_tab` commits at most one history unit -/

theorem trans_insert_history (s : editor_state) (g : List modification)
    (p : position) (chars : List Char) :
    (trans_insert_characters s g p chars).1.history = s.history := by
  by_cases h : chars = []
  · simp [trans_insert_characters, h]
  · simp [trans_insert_characters, h, editor_state.model_insert]

theorem trans_erase_history (s : editor_state) (g : List modification) (r : range) :
    (trans_erase_characters s g r).1.history = s.history := by
  by_cases h : r.start = r.stop
  · simp [trans_erase_characters, h]
  · simp [trans_erase_characters, h, editor_state.model_erase]

theorem indent_lines_history (chars : List Char) :
    ∀ (idxs : List Nat) (s : editor_state) (g : List modification),
      (do_tab_indent_lines chars s g idxs).1.history = s.history := by
  intro idxs
  induction idxs with
  | nil => intro s g; rfl
  | cons i rest ih =>
    intro s g
    show (do_tab_indent_lines chars
      (trans_insert_characters s g ⟨i, 0⟩ chars).1
      (trans_insert_characters s g ⟨i, 0⟩ chars).2 rest).1.history = s.history
    rw [ih]
    exact trans_insert_history s g ⟨i, 0⟩ chars

theorem deindent_lines_history (tabsz al pl : Nat) :
    ∀ (idxs : List Nat) (s : editor_state) (g : List modification) (nA nP : Nat),
      (do_tab_deindent_lines tabsz al pl s g nA nP idxs).1.history = s.history := by
  intro idxs
  induction idxs with
  | nil => intro s g nA nP; rfl
  | cons i rest ih =>
    intro s g nA nP
    by_cases hc : (decide (0 < (line_str s.lines i).length) &&
        decide ((line_str s.lines i).getD 0 ' ' = '\t')) = true
    · simp only [do_tab_deindent_lines, hc, if_true]
      rw [ih]
      exact trans_erase_history s g _
    · simp only [do_tab_deindent_lines, hc, if_false, Bool.false_eq_true]
      rw [ih]
      exact trans_erase_history s g _

theorem do_tab_core_history (s : editor_state) (shift : Bool) :
    (s.do_tab_core shift).1.history = s.history := by
  simp only [editor_state.do_tab_core]
  repeat' split
  all_goals simp [editor_state.set_pos_move_anchor, editor_state.set_pos_keep_anchor,
    trans_insert_history, trans_erase_history, indent_lines_history,
    deindent_lines_history]

theorem add_length_le (h : modification_history) (m : modification) :
    (h.add m).undo_mods.length ≤ h.undo_mods.length + 1 := by
  rw [add_undo_mods]
  split
  · rw [List.length_tail]
    simp
  · simp

theorem add_length_eq (h : modification_history) (m : modification)
    (hlen : h.undo_mods.length < 1000) :
    (h.add m).undo_mods.length = h.undo_mods.length + 1 := by
  rw [add_undo_mods, if_neg (by omega)]
  simp

theorem do_tab_one_unit (s : editor_state) (shift : Bool) :
    (s.do_tab shift).history.undo_mods.length ≤
      s.history.undo_mods.length + 1 := by
  rw [editor_state.do_tab, commit_transaction]
  split
  · rw [do_tab_core_history]
    omega
  · show ((s.do_tab_core shift).1.history.add
        (.group (s.do_tab_core shift).2)).undo_mods.length ≤ _
    rw [do_tab_core_history]
    exact add_length_le s.history _

theorem delete_chars_history (s : editor_state) (r : range)
    (hne : ¬(r.start = r.stop)) (hen : s.enable_history = true) :
    (s.delete_chars r).history =
      s.history.add (.erase r (characters_str s.lines r)) ∧
    (s.delete_chars r).enable_history = true := by
  constructor
  · simp [editor_state.delete_chars, hne, editor_state.model_erase, hen]
  · simp [editor_state.delete_chars, hne, editor_state.model_erase, hen]

theorem insert_chars_at_history (s : editor_state) (p : position)
    (chars : List Char) (hc : chars ≠ []) (hen : s.enable_history = true) :
    (s.insert_chars_at p chars).history =
      s.history.add (.insert (buffer_insert s.lines p chars).2 chars) := by
  simp [editor_state.insert_chars_at, hc, editor_state.model_insert, hen]

/-- Pasting over a non-empty selection records two separate history
entries: the erase of the selection and the insertion of the text. -/
theorem paste_selection_two_entries (s : editor_state) (text : List Char)
    (hen : s.enable_history = true) (hsel : s.anchor_pos ≠ s.pos)
    (htext : text ≠ []) (hb : s.history.undo_mods.length ≤ 998) :
    (s.paste text).history.undo_mods.length =
      s.history.undo_mods.length + 2 := by
  have hne : ¬(s.selected_range.start = s.selected_range.stop) := by
    rw [editor_state.selected_range, selected_range_of]
    split
    · exact hsel
    · exact fun h => hsel h.symm
  have hd := delete_chars_history s s.selected_range hne hen
  have h1 : (s.delete_chars s.selected_range).history.undo_mods.length =
      s.history.undo_mods.length + 1 := by
    rw [hd.1, add_length_eq _ _ (by omega)]
  rw [editor_state.paste, editor_state.insert_chars,
    insert_chars_at_history _ _ text htext hd.2,
    add_length_eq _ _ (by rw [h1]; omega), h1]

/-- A two-character document with a clean history and the cursor at the
start, used as the C1 counterexample. -/
def c1_state : editor_state :=
  { lines := [['a', 'b']], pos := ⟨0, 0⟩, anchor_pos := ⟨0, 0⟩,
    history := modification_history.empty }

/-- C1 (counterexample).  One `do_delete` followed by one `undo()` (an
equal number of undos) restores the buffer content and `changed()`, but
not the cursor: undoing the forward delete re-inserts the character and
leaves cursor and anchor after it, at `{0,1}` instead of `{0,0}`. -/
theorem C1_round_trip_counterexample :
    (editor_state.undo_times 1 c1_state.do_delete).lines = c1_state.lines ∧
    (editor_state.undo_times 1 c1_state.do_delete).history.changed = false ∧
    (editor_state.undo_times 1 c1_state.do_delete).pos ≠ c1_state.pos ∧
    (editor_state.undo_times 1 c1_state.do_delete).anchor_pos ≠
      c1_state.anchor_pos := by
  decide

/-- C1 (amended).  For at most 500 editing actions drawn from `do_char`
(any character other than `}` and a bare CR), `do_enter`, `do_delete`,
`do_backspace`, `cut` and `paste` (of text that is empty or contains a
non-CR character), starting from a well-formed state (no embedded line
breaks, valid cursor, empty selection, overwrite off, history on) with a
clean history: undoing once per *recorded history entry* — `do_enter` may
record two — restores the buffer content and leaves `changed() == false`.
The cursor and anchor are not restored in general (see the
counterexample). -/
theorem C1_round_trip_amended (s0 : editor_state) (acts : List edit_action)
    (hwf : wf_state s0) (hh : s0.history = modification_history.empty)
    (hgood : ∀ a ∈ acts, good_action a) (hlen : acts.length ≤ 500) :
    (editor_state.undo_times
      (acts.foldl apply_action s0).history.undo_mods.length
      (acts.foldl apply_action s0)).lines = s0.lines ∧
    (editor_state.undo_times
      (acts.foldl apply_action s0).history.undo_mods.length
      (acts.foldl apply_action s0)).history.changed = false := by
  have hinv0 : history_inv s0.lines s0 := by
    refine ⟨?_, ?_, ?_⟩ <;> rw [hh] <;>
      simp [modification_history.empty, inverts_chain]
  have hfold := fold_actions_inv s0.lines acts s0 hwf hinv0 hgood
    (by rw [hh]; simp [modification_history.empty]; omega)
  have hb1000 : (acts.foldl apply_action s0).history.undo_mods.length ≤ 1000 := by
    have h3 := hfold.2.2
    rw [hh] at h3
    simp [modification_history.empty] at h3
    omega
  have hres := undo_all s0.lines
    (acts.foldl apply_action s0).history.undo_mods.reverse
    (acts.foldl apply_action s0) rfl hfold.2.1.1 hb1000 hfold.2.1.2.2
  rw [List.length_reverse] at hres
  refine ⟨hres.1, ?_⟩
  rw [modification_history.changed, hres.2]
  simp

/-- The concrete instance of the amended round-trip: a two-character
document and six actions, one of each kind. -/
def c1w_state : editor_state :=
  { lines := [['h', 'i']], pos := ⟨0, 1⟩, anchor_pos := ⟨0, 1⟩,
    history := modification_history.empty }

def c1w_acts : List edit_action :=
  [.char 'x', .enter, .del, .backspace, .paste ['o', 'k'], .cut]

theorem C1_round_trip_amended_witness :
    (wf_state c1w_state ∧ (∀ a ∈ c1w_acts, good_action a) ∧
      c1w_acts.length ≤ 500) ∧
    ((editor_state.undo_times
      (c1w_acts.foldl apply_action c1w_state).history.undo_mods.length
      (c1w_acts.foldl apply_action c1w_state)).lines = c1w_state.lines ∧
    (editor_state.undo_times
      (c1w_acts.foldl apply_action c1w_state).history.undo_mods.length
      (c1w_acts.foldl apply_action c1w_state)).history.changed = false) := by
  have hwf : wf_state c1w_state := by
    unfold wf_state clean_lines clean_char
    exact ⟨by decide, by decide, rfl, rfl, rfl, rfl⟩
  have hgood : ∀ a ∈ c1w_acts, good_action a := by
    intro a ha
    fin_cases ha
    · exact ⟨by decide, by decide⟩
    · exact trivial
    · exact trivial
    · exact trivial
    · exact Or.inr ⟨'o', by decide, by decide⟩
    · exact trivial
  exact ⟨⟨hwf, hgood, by decide⟩,
    C1_round_trip_amended c1w_state c1w_acts hwf rfl hgood (by decide)⟩

/-- A two-character document fully selected, used as the C3
counterexample. -/
def c3_state : editor_state :=
  { lines := [['a', 'b']], pos := ⟨0, 2⟩, anchor_pos := ⟨0, 0⟩,
    history := modification_history.empty }

/-- C3 (counterexample).  Pasting `x` over the selected text `ab` records
two history entries, not one; a single `undo()` reverses only the
insertion, leaving the empty line rather than `ab`, with the history still
dirty. -/
theorem C3_transaction_counterexample :
    (c3_state.paste ['x']).history.undo_mods.length = 2 ∧
    (c3_state.paste ['x']).undo.lines ≠ c3_state.lines ∧
    (c3_state.paste ['x']).undo.history.changed = true := by
  decide

/-- C3 (amended).  Only `do_tab` routes its mutations through a
transaction, committing at most one (group) history unit per call.  The
other actions record each model mutation as its own entry: pasting
non-empty text over a non-empty selection grows the undo stack by exactly
two entries, the erase of the selection and the insertion of the text, so
a single `undo()` does not fully reverse it. -/
theorem C3_transaction_amended :
    (∀ (s : editor_state) (shift : Bool),
      (s.do_tab shift).history.undo_mods.length ≤
        s.history.undo_mods.length + 1) ∧
    (∀ (s : editor_state) (text : List Char),
      s.enable_history = true → s.anchor_pos ≠ s.pos → text ≠ [] →
      s.history.undo_mods.length ≤ 998 →
      (s.paste text).history.undo_mods.length =
        s.history.undo_mods.length + 2) :=
  ⟨do_tab_one_unit, paste_selection_two_entries⟩

/-- A three-character document with a partial selection, instantiating the
amended C3. -/
def c3w_state : editor_state :=
  { lines := [['u', 'v', 'w']], pos := ⟨0, 3⟩, anchor_pos := ⟨0, 1⟩,
    history := modification_history.empty }

theorem C3_transaction_amended_witness :
    (c3w_state.do_tab false).history.undo_mods.length ≤
      c3w_state.history.undo_mods.length + 1 ∧
    (c3w_state.paste ['z']).history.undo_mods.length =
      c3w_state.history.undo_mods.length + 2 :=
  ⟨C3_transaction_amended.1 c3w_state false,
   C3_transaction_amended.2 c3w_state ['z'] rfl (by decide) (by decide) (by decide)⟩
